import Mathlib

/-!
The unicode tokenizer of `analysis/tokenizer/unicode`

A shallow embedding of `unicode.go` (`UnicodeTokenizer.Tokenize`, `getType`) and of the
previous implementation kept in `unicode_test.go` (`TokenizePrevious`, `convertType`).

* Go `int` values are `Int`; `/` is truncated division (`Int.tdiv`), `|` is two's
  complement or (`Int.lor`).  Lengths and slice indices that the code only ever counts
  upwards from zero are `Nat`.
* Run-time panics are explicit: a division by zero, an index outside a slice and a
  `make` with a negative length end the run with a `Panic`.
* `pool` and `ta` are slices of token records, and the result holds *pointers* into
  them.  The embedding keeps every backing array that was ever allocated in a `Heap`
  (one entry per `make([]analysis.Token, n)`), a slice variable is the number of its
  backing array, and a pointer is a pair of an array number and an index.
* The segmentation engines (`words`, `filter`, `segment`) are external packages; what
  they compute is a parameter (`Words`, `OldSegment`).
-/

namespace Unicode

/-! ## Data model -/

abbrev Byte := Fin 256

/-- Modelled from the spec: `analysis.TokenType` is declared outside `src/`; the three
content types a token of this tokenizer can have (`AlphaNumeric` is the zero value). -/
inductive TokenType where
  | AlphaNumeric
  | Numeric
  | Ideographic
deriving DecidableEq, Repr, Inhabited

/-- Modelled from the spec: `analysis.Token` is declared outside `src/`; the fields
`Tokenize` assigns (`Typ` stands for the Go field `Type`). -/
structure Token where
  Term : List Byte
  Start : Int
  End : Int
  Position : Int
  Typ : TokenType
deriving DecidableEq, Repr

/-- The zero value of `analysis.Token`, what `make([]analysis.Token, n)` is filled with. -/
def Token.zero : Token :=
  { Term := [], Start := 0, End := 0, Position := 0, Typ := TokenType.AlphaNumeric }

instance : Inhabited Token := ⟨Token.zero⟩

/-- The ways a run can end without returning. -/
inductive Panic where
  | divideByZero
  | indexOutOfRange
  | makeNegativeLen
deriving DecidableEq, Repr

deriving instance DecidableEq for Except

/-- One segment as the walker exposes it: `Bytes()`, `Start()`, `End()`. -/
structure Segment where
  Bytes : List Byte
  Start : Int
  End : Int
deriving DecidableEq, Repr

/-- The external packages `words` and `filter`: the segments `words.NewSegmenter(input)`
walks through before any filter, the predicate `filter.AlphaNumeric`, and the two
classification predicates used by `getType`. -/
structure Words where
  segments : List Byte → List Segment
  AlphaNumeric : List Byte → Bool
  BleveIdeographic : List Byte → Bool
  BleveNumeric : List Byte → Bool

/-! ## Go primitives -/

/-- Go integer division: truncated, panics on a zero divisor. -/
def goDiv (a b : Int) : Except Panic Int :=
  if b = 0 then .error Panic.divideByZero else .ok (Int.tdiv a b)

/-- Go `x | 1`. -/
def or1 (x : Int) : Int := Int.lor x 1

/-- The value of `make([]analysis.Token, n)`: `n` zero records, a panic when `n < 0`. -/
def makeTokens (n : Int) : Except Panic (List Token) :=
  if n < 0 then .error Panic.makeNegativeLen else .ok (List.replicate n.toNat Token.zero)

/-- The check of `make(analysis.TokenStream, 0, n)`: a panic when the capacity `n < 0`. -/
def makeCap (n : Int) : Except Panic Unit :=
  if n < 0 then .error Panic.makeNegativeLen else .ok ()

/-- Every backing array of token records allocated so far, oldest first. -/
abbrev Heap := List (List Token)

/-- A `*analysis.Token`: the number of the backing array and the index in it. -/
structure Ptr where
  gen : Nat
  idx : Nat
deriving DecidableEq, Repr

/-- Length of the slice whose backing array is number `g`. -/
def Heap.len (h : Heap) (g : Nat) : Nat := (h.getD g []).length

/-- The record a pointer points to. -/
def Heap.read (h : Heap) (p : Ptr) : Token := (h.getD p.gen []).getD p.idx Token.zero

/-- Overwrite the record a pointer points to. -/
def Heap.write (h : Heap) (p : Ptr) (t : Token) : Heap :=
  h.set p.gen ((h.getD p.gen []).set p.idx t)

/-- The token stream a slice of pointers denotes. -/
def Heap.stream (h : Heap) (ps : List Ptr) : List Token := ps.map h.read

/-! ## `unicode.go` -/

/-- The function `getType`: ideographic first, then numeric, else alphanumeric. -/
def getType (w : Words) (segment : List Byte) : TokenType :=
  if w.BleveIdeographic segment then TokenType.Ideographic
  else if w.BleveNumeric segment then TokenType.Numeric
  else TokenType.AlphaNumeric

/-- The local variables of `Tokenize` that change in the loop, with the heap. -/
structure TokState where
  heap : Heap
  pool : Nat
  poolIndex : Nat
  result : List Ptr
deriving DecidableEq, Repr

/-- Lines 52-55: the size of the next pool, from the bytes consumed so far and the
number of tokens in `result`. -/
def guessTokensRemaining (inputBytes bytesSoFar lenResult : Int) : Except Panic Int := do
  let tokensSoFar := or1 lenResult
  let q ← goDiv bytesSoFar tokensSoFar
  let avgBytesPerToken := or1 q
  let r ← goDiv (inputBytes - bytesSoFar) avgBytesPerToken
  pure (or1 r)

/-- Lines 51-69: the loop body for the segment `s` the segmenter stands on.  `grow` is
the computation of the new pool's size (lines 52-55 in the source). -/
def tokenizeBody (w : Words) (grow : Int → Int → Int → Except Panic Int)
    (inputBytes : Int) (s : Segment) (st : TokState) : Except Panic TokState := do
  let st ←
    if st.poolIndex ≥ st.heap.len st.pool then do
      let n ← grow inputBytes s.End st.result.length
      let pool ← makeTokens n
      pure { st with heap := st.heap ++ [pool], pool := st.heap.length, poolIndex := 0 }
    else pure st
  if st.poolIndex < st.heap.len st.pool then
    let token : Ptr := ⟨st.pool, st.poolIndex⟩
    let t : Token :=
      { st.heap.read token with
        Term := s.Bytes, Start := s.Start, End := s.End,
        Position := (st.result.length : Int) + 1, Typ := getType w s.Bytes }
    pure { st with heap := st.heap.write token t, poolIndex := st.poolIndex + 1,
                   result := st.result ++ [token] }
  else .error Panic.indexOutOfRange

/-- The loop `for segmenter.Next() { ... }` with `segmenter.Filter(filter.AlphaNumeric)` set:
`Next` steps over the segments the filter rejects and stops on the next one it accepts;
the loop ends when the segments are used up. -/
def tokenizeLoop (w : Words) (grow : Int → Int → Int → Except Panic Int)
    (inputBytes : Int) : List Segment → TokState → Except Panic TokState
  | [], st => pure st
  | s :: rest, st =>
    if w.AlphaNumeric s.Bytes then do
      let st ← tokenizeBody w grow inputBytes s st
      tokenizeLoop w grow inputBytes rest st
    else tokenizeLoop w grow inputBytes rest st

/-- What a run of `Tokenize` leaves behind: the capacity `result` was made with, the
final heap and the final `result` slice. -/
structure TokRun where
  resultCap : Int
  final : TokState
deriving DecidableEq, Repr

/-- The run of `Tokenize` with the two size computations as parameters: `guess` gives
`guessTokens` from `inputBytes` (line 39), `grow` gives `guessTokensRemaining`
(lines 52-55). -/
def tokenizeRun (w : Words) (guess : Int → Except Panic Int)
    (grow : Int → Int → Int → Except Panic Int) (input : List Byte) :
    Except Panic TokRun := do
  let inputBytes : Int := input.length
  let guessTokens ← guess inputBytes
  makeCap guessTokens
  let pool ← makeTokens guessTokens
  let st0 : TokState := { heap := [pool], pool := 0, poolIndex := 0, result := [] }
  let st ← tokenizeLoop w grow inputBytes (w.segments input) st0
  pure { resultCap := guessTokens, final := st }

/-- Line 38. -/
def guessBytesPerToken : Int := 6

/-- Line 39: `(inputBytes / guessBytesPerToken) | 1`, with any constant. -/
def guessTokensWith (k : Int) (inputBytes : Int) : Except Panic Int := do
  let q ← goDiv inputBytes k
  pure (or1 q)

/-- The receiver type: a struct without fields. -/
structure UnicodeTokenizer where
deriving DecidableEq, Repr

def NewUnicodeTokenizer : UnicodeTokenizer := {}

/-- The stream a run returns: each pointer of `result` followed to its record. -/
def TokRun.stream (r : TokRun) : List Token := r.final.heap.stream r.final.result

/-- The token stream returned by `Tokenize` with the two size computations as
parameters. -/
def tokenizeWith (w : Words) (guess : Int → Except Panic Int)
    (grow : Int → Int → Int → Except Panic Int) (input : List Byte) :
    Except Panic (List Token) := do
  let r ← tokenizeRun w guess grow input
  pure r.stream

/-- The whole run of `(rt *UnicodeTokenizer) Tokenize(input)`: `guessBytesPerToken` is 6
and the pool size is computed as in lines 52-55. -/
def UnicodeTokenizer.run (_rt : UnicodeTokenizer) (w : Words) (input : List Byte) :
    Except Panic TokRun :=
  tokenizeRun w (guessTokensWith guessBytesPerToken) guessTokensRemaining input

/-- The method `(rt *UnicodeTokenizer) Tokenize(input)`: the returned `analysis.TokenStream`. -/
def UnicodeTokenizer.Tokenize (rt : UnicodeTokenizer) (w : Words) (input : List Byte) :
    Except Panic (List Token) := do
  let r ← rt.run w input
  pure r.stream

/-! ## The naive reference -/

/-- The segments `Next` stops on: those `filter.AlphaNumeric` accepts, in order. -/
def keptSegments (w : Words) (input : List Byte) : List Segment :=
  (w.segments input).filter (fun s => w.AlphaNumeric s.Bytes)

/-- The token of a kept segment when `n` tokens were emitted before it. -/
def tokenOf (w : Words) (s : Segment) (n : Nat) : Token :=
  { Term := s.Bytes, Start := s.Start, End := s.End, Position := (n : Int) + 1,
    Typ := getType w s.Bytes }

/-- The naive reference, in the words of the specification: the k-th kept segment
(counted from 1) becomes the token with its bytes, offsets, position k and
`getType` of its bytes, by plain list append. -/
def tokenizeNaive (w : Words) (input : List Byte) : List Token :=
  (keptSegments w input).foldl (fun result s => result ++ [tokenOf w s result.length]) []

/-- Go `input[lo:hi]` for `0 <= lo <= hi <= len(input)`. -/
def slice (input : List Byte) (lo hi : Int) : List Byte :=
  (input.drop lo.toNat).take (hi.toNat - lo.toNat)

/-- The walker contract `0 <= End() <= len(input)`, for the segments `Next` stops on. -/
def EndInRange (w : Words) (input : List Byte) : Prop :=
  ∀ s ∈ w.segments input, w.AlphaNumeric s.Bytes = true →
    0 ≤ s.End ∧ s.End ≤ (input.length : Int)

/-- The walker contract that every segment is a non-empty, in-range view of the input:
`0 <= Start() < End() <= len(input)` and `Bytes()` is `input[Start():End()]`. -/
def SegmentsAreViews (w : Words) (input : List Byte) : Prop :=
  ∀ s ∈ w.segments input,
    0 ≤ s.Start ∧ s.Start < s.End ∧ s.End ≤ (input.length : Int) ∧
    s.Bytes = slice input s.Start s.End

/-- The walker contract that segments do not overlap and come in increasing offset
order: a segment ends at or before the start of every later one. -/
def SegmentsOrdered (w : Words) (input : List Byte) : Prop :=
  (w.segments input).Pairwise (fun a b => a.End ≤ b.Start)

/-! ## `unicode_test.go`: the previous implementation -/

/-- The word types of the external package `segment` (`None = iota`, then `Number`,
`Letter`, `Kana`, `Ideo`). -/
def segment.None : Int := 0
def segment.Number : Int := 1
def segment.Letter : Int := 2
def segment.Kana : Int := 3
def segment.Ideo : Int := 4

/-- The function `convertType` of the test file. -/
def convertType (segmentWordType : Int) : TokenType :=
  if segmentWordType = segment.Ideo then TokenType.Ideographic
  else if segmentWordType = segment.Kana then TokenType.Ideographic
  else if segmentWordType = segment.Number then TokenType.Numeric
  else TokenType.AlphaNumeric

/-- One segment of the old engine: `Bytes()` and `Type()`. -/
structure OldSegment where
  Bytes : List Byte
  Typ : Int
deriving DecidableEq, Repr

/-- The local variables of `TokenizePrevious`, with the heap.  `ta` starts as the nil
slice, which is the empty backing array number 0. -/
structure PrevState where
  heap : Heap
  ta : Nat
  taNext : Nat
  rvx : List (List Ptr)
  rv : List Ptr
  rvCap : Nat
  start : Int
  pos : Int
deriving DecidableEq, Repr

/-- The closure `guessRemaining` (`lenRv` is `len(rv)`). -/
def guessRemaining (inputBytes : Int) (lenRv : Int) (end_ : Int) : Except Panic Int := do
  let avgSegmentLen ← goDiv end_ (lenRv + 1)
  let avgSegmentLen := if avgSegmentLen < 1 then 1 else avgSegmentLen
  let remainingLen := inputBytes - end_
  goDiv remainingLen avgSegmentLen

/-- The block `if taNext >= len(ta) { ... }`: a new `ta` of `guessRemaining(end)`
records, at most 1000 and at least 1. -/
def previousRefill (inputBytes : Int) (end_ : Int) (st : PrevState) :
    Except Panic PrevState :=
  if st.taNext ≥ st.heap.len st.ta then do
    let remainingSegments ← guessRemaining inputBytes st.rv.length end_
    let remainingSegments := if remainingSegments > 1000 then 1000 else remainingSegments
    let remainingSegments := if remainingSegments < 1 then 1 else remainingSegments
    let ta ← makeTokens remainingSegments
    pure { st with heap := st.heap ++ [ta], ta := st.heap.length, taNext := 0 }
  else pure st

/-- From `token := &ta[taNext]` to `pos++`: fill in the next record, move a full `rv`
into `rvx` and start a bigger one, append the pointer. -/
def previousEmit (s : OldSegment) (end_ : Int) (st : PrevState) : Except Panic PrevState :=
  if st.taNext < st.heap.len st.ta then
    let token : Ptr := ⟨st.ta, st.taNext⟩
    let t : Token :=
      { st.heap.read token with
        Term := s.Bytes, Start := st.start, End := end_,
        Position := st.pos, Typ := convertType s.Typ }
    let st := { st with heap := st.heap.write token t, taNext := st.taNext + 1 }
    let st :=
      if st.rv.length ≥ st.rvCap then
        let rvCap := st.rvCap * 2
        let rvCap := if rvCap > 256 then 256 else rvCap
        { st with rvx := st.rvx ++ [st.rv], rv := [], rvCap := rvCap }
      else st
    pure { st with rv := st.rv ++ [token], pos := st.pos + 1 }
  else .error Panic.indexOutOfRange

/-- The body of `for segmenter.Segment() { ... }`. -/
def previousBody (inputBytes : Int) (s : OldSegment) (st : PrevState) :
    Except Panic PrevState := do
  let segmentBytes := s.Bytes
  let end_ : Int := st.start + (segmentBytes.length : Int)
  let st ←
    if s.Typ ≠ segment.None then do
      let st ← previousRefill inputBytes end_ st
      previousEmit s end_ st
    else pure st
  pure { st with start := end_ }

/-- The loop `for segmenter.Segment() { ... }` over the old engine's segments. -/
def previousLoop (inputBytes : Int) : List OldSegment → PrevState → Except Panic PrevState
  | [], st => pure st
  | s :: rest, st => do
    let st ← previousBody inputBytes s st
    previousLoop inputBytes rest st

/-- All pointers appended so far: the chunks of `rvx` in order, then `rv`. -/
def PrevState.all (st : PrevState) : List Ptr :=
  st.rvx.foldl (fun rall r => rall ++ r) [] ++ st.rv

/-- The pointers `TokenizePrevious` returns: `rvx` concatenated, then `rv`, when `rvx` is
not empty; `rv` otherwise. -/
def previousResult (st : PrevState) : List Ptr :=
  if st.rvx.length > 0 then
    st.rvx.foldl (fun rall r => rall ++ r) [] ++ st.rv
  else st.rv

/-- The function `TokenizePrevious(input)`, over the segments `old input` of the old engine. -/
def TokenizePrevious (old : List Byte → List OldSegment) (input : List Byte) :
    Except Panic (List Token) := do
  let st0 : PrevState :=
    { heap := [[]], ta := 0, taNext := 0, rvx := [], rv := [], rvCap := 1,
      start := 0, pos := 1 }
  let st ← previousLoop (input.length : Int) (old input) st0
  pure (st.heap.stream (previousResult st))

/-- The segments of the old engine whose type is not `segment.None`, each with the
offsets `TokenizePrevious` computes for it (the running sum of the segment lengths from
`start`) and its type. -/
def oldKept (start : Int) : List OldSegment → List (Segment × Int)
  | [] => []
  | s :: rest =>
    let end_ : Int := start + (s.Bytes.length : Int)
    if s.Typ ≠ segment.None then
      (⟨s.Bytes, start, end_⟩, s.Typ) :: oldKept end_ rest
    else oldKept end_ rest

/-- The invariant of a pool of records with a slice of pointers into the heap: `pool` is
the newest backing array, `idx` is within it, every pointer handed out so far points
into the heap and, when into the newest array, below `idx`; `ts` is what the pointers
denote. -/
structure PoolInv (heap : Heap) (pool idx : Nat) (ptrs : List Ptr) (ts : List Token) :
    Prop where
  pool_last : pool + 1 = heap.length
  idx_le : idx ≤ heap.len pool
  fresh : ∀ p ∈ ptrs, p.gen < heap.length ∧ (p.gen = pool → p.idx < idx)
  stream : heap.stream ptrs = ts

/-- Every backing array in the heap has at least one record. -/
def HeapPositive (heap : Heap) : Prop := ∀ g, g < heap.length → 0 < heap.len g

/-- One step of the naive reference. -/
def naiveStep (w : Words) (result : List Token) (s : Segment) : List Token :=
  result ++ [tokenOf w s result.length]

/-- The token `TokenizePrevious` makes of a kept segment of the old engine when `n`
tokens were emitted before it. -/
def oldTokenOf (x : Segment × Int) (n : Nat) : Token :=
  { Term := x.1.Bytes, Start := x.1.Start, End := x.1.End, Position := (n : Int) + 1,
    Typ := convertType x.2 }

/-- One step of the naive reading of `TokenizePrevious`. -/
def previousStep (result : List Token) (x : Segment × Int) : List Token :=
  result ++ [oldTokenOf x result.length]

/-- The invariant of the loop of `TokenizePrevious`: the pool invariant for `ta` and all
pointers appended so far, and `pos` is one more than the number of tokens. -/
structure PrevInv (st : PrevState) (ts : List Token) : Prop where
  pool : PoolInv st.heap st.ta st.taNext st.all ts
  pos : st.pos = (ts.length : Int) + 1

/-- The segment a token was made from: its bytes and offsets. -/
def Token.segment (t : Token) : Segment := ⟨t.Term, t.Start, t.End⟩

/-! ## A small concrete walker, to run the definitions on -/

/-- ASCII digit. -/
def isDigit (b : Byte) : Bool := decide (48 ≤ b.val ∧ b.val ≤ 57)

/-- ASCII letter. -/
def isLetter (b : Byte) : Bool :=
  decide ((65 ≤ b.val ∧ b.val ≤ 90) ∨ (97 ≤ b.val ∧ b.val ≤ 122))

/-- One segment per byte, starting at offset `start`. -/
def byteSegments (start : Int) : List Byte → List Segment
  | [] => []
  | b :: rest => ⟨[b], start, start + 1⟩ :: byteSegments (start + 1) rest

/-- A walker that makes every byte a segment of its own, keeps ASCII letters and digits
and bytes above 127, calls the latter ideographic and digits numeric. -/
def byteWords : Words where
  segments := byteSegments 0
  AlphaNumeric := fun bs => bs.any (fun b => isDigit b || isLetter b || decide (128 ≤ b.val))
  BleveIdeographic := fun bs => bs.any (fun b => decide (128 ≤ b.val))
  BleveNumeric := fun bs => bs.all isDigit

/-- The old engine on the same bytes: one segment per byte, digits are
`segment.Number`, letters `segment.Letter`, bytes above 127 `segment.Ideo`, the rest
`segment.None`. -/
def byteOld (input : List Byte) : List OldSegment :=
  input.map (fun b =>
    ⟨[b], if isDigit b then segment.Number else if isLetter b then segment.Letter
          else if 128 ≤ b.val then segment.Ideo else segment.None⟩)

/-- A walker that breaks the contract `End() <= len(input)`: like `byteWords`, but the
third segment claims to end at offset 9. -/
def overrunWords : Words :=
  { byteWords with
    segments := fun input =>
      (byteSegments 0 input).enum.map
        (fun p => if p.1 = 2 then { p.2 with End := 9 } else p.2) }

/-- The bytes of `"ab 1"`. -/
def sampleInput : List Byte := [97, 98, 32, 49]

/-- The tokens of `"ab 1"` under `byteWords`. -/
def sampleTokens : List Token :=
  [ ⟨[97], 0, 1, 1, TokenType.AlphaNumeric⟩,
    ⟨[98], 1, 2, 2, TokenType.AlphaNumeric⟩,
    ⟨[49], 3, 4, 3, TokenType.Numeric⟩ ]


/-! ## The size estimates in the words of the specification -/

/-- The initial capacity as the specification words it: `max(1, inputLength / K)` with
`K = 6`, integer division. -/
def specGuessTokens (inputBytes : Int) : Int := max 1 (Int.tdiv inputBytes 6)

/-- The size of a new pool as the specification words it: the remaining bytes divided
by the observed density `b / t`, neither below 1:
`max(1, (len(input) - b) / max(1, b / t))`, integer division. -/
def specGuessRemaining (inputBytes b t : Int) : Int :=
  max 1 (Int.tdiv (inputBytes - b) (max 1 (Int.tdiv b t)))

/-- The bytes of `"abcdefghijkl"`. -/
def twelveLetters : List Byte := [97, 98, 99, 100, 101, 102, 103, 104, 105, 106, 107, 108]

/-- The state of `Tokenize(input)` at the moment `Next` has stopped on the kept segment
`s`, the segments `pre` having been walked through before it: `st` is what the loop
made of the initial state (one pool of `guessTokens` records, nothing emitted) over
`pre`. -/
def StoppedAt (w : Words) (input : List Byte) (pre : List Segment) (s : Segment)
    (st : TokState) : Prop :=
  (∃ post, w.segments input = pre ++ s :: post) ∧ w.AlphaNumeric s.Bytes = true ∧
  ∃ g pool, guessTokensWith guessBytesPerToken (input.length : Int) = .ok g ∧
    makeTokens g = .ok pool ∧
    tokenizeLoop w guessTokensRemaining (input.length : Int) pre
      { heap := [pool], pool := 0, poolIndex := 0, result := [] } = .ok st

/-- The pool is used up: the test `poolIndex >= len(pool)` of line 51 succeeds. -/
def Exhausted (st : TokState) : Prop := st.poolIndex ≥ st.heap.len st.pool

/-- What holds of every state the loop of `Tokenize` goes through, beyond `PoolInv`: the
pointers in `result` are pairwise distinct; every record of the earlier pools and the
first `poolIndex` records of the newest pool are taken, so `len(result)` is the total
size of the earlier pools plus `poolIndex`; every pool has an odd number of records. -/
structure SlotInv (st : TokState) : Prop where
  nodup : st.result.Nodup
  count : st.result.length + st.heap.len st.pool =
    (st.heap.map List.length).sum + st.poolIndex
  odd : ∀ g, g < st.heap.length → st.heap.len g % 2 = 1

/-! ## The external collaborators, from the specification -/

/-- Modelled from the spec: the external predicate `words.BleveIdeographic`, which is
not part of this repository.  The specification (4.3) has an `Ideographic` segment
"composed of codepoints" from the ideographic scripts: the check accepts a segment
exactly when every one of its codepoints is ideographic.  `decode` gives the codepoints
of a byte sequence and `ideographic` is the script table; both are external. -/
def specBleveIdeographic (decode : List Byte → List Nat) (ideographic : Nat → Bool)
    (segment : List Byte) : Bool :=
  (decode segment).all ideographic

/-- Modelled from the spec: the boundary walker (`words.NewSegmenter` with `Next`,
`Bytes`, `Start`, `End`), which is not part of this repository.  The specification
describes a single forward pass that yields contiguous byte ranges: the walker stands at
offset `pos` with `rest` still to walk; the boundary rule `boundary` (the external rule
tables) says where the segment that begins here ends, a segment takes at least one byte
(a minimal segment) and at most what is left; the next segment begins where this one
ends, and the walker is exhausted at the end of the input.  `fuel` bounds the number of
segments. -/
def specWalk (boundary : List Byte → Nat) : Nat → Nat → List Byte → List Segment
  | 0, _, _ => []
  | _ + 1, _, [] => []
  | fuel + 1, pos, b :: rest =>
    let bytes := (b :: rest).take (max 1 (boundary (b :: rest)))
    ⟨bytes, (pos : Int), ((pos + bytes.length : Nat) : Int)⟩ ::
      specWalk boundary fuel (pos + bytes.length) ((b :: rest).drop bytes.length)

/-- Modelled from the spec: all segments the boundary walker yields for `input`, in
order (see `specWalk`); a segment has at least one byte, so `len(input)` steps are
enough. -/
def specSegments (boundary : List Byte → Nat) (input : List Byte) : List Segment :=
  specWalk boundary input.length 0 input

/-- The ranges of `segs` tile `[lo, hi)`: the first starts at `lo`, each one starts
where the one before it ends, and the last ends at `hi`. -/
def Contiguous : Int → Int → List Segment → Prop
  | lo, hi, [] => lo = hi
  | lo, hi, s :: rest => s.Start = lo ∧ s.Start ≤ s.End ∧ Contiguous s.End hi rest

/-- Byte offset `i` lies in the range of segment `s`. -/
def Segment.covers (s : Segment) (i : Int) : Bool := decide (s.Start ≤ i ∧ i < s.End)

/-- All segments of the old engine, kept or not, with the offsets `TokenizePrevious`
computes for them: `end := start + len(segmentBytes)`, then `start = end`. -/
def oldRanges (start : Int) : List OldSegment → List Segment
  | [] => []
  | s :: rest =>
    let end_ : Int := start + (s.Bytes.length : Int)
    ⟨s.Bytes, start, end_⟩ :: oldRanges end_ rest

/-- A boundary rule for the concrete runs: bytes that `byteWords` keeps (letters,
digits, bytes above 127) go in pairs, any other byte is a segment of its own. -/
def pairBoundary (rest : List Byte) : Nat :=
  match rest with
  | b :: c :: _ =>
    if byteWords.AlphaNumeric [b] && byteWords.AlphaNumeric [c] then 2 else 1
  | _ => 1

/-- A decoder for the concrete runs: every byte is a codepoint. -/
def bytesAsCodepoints (bs : List Byte) : List Nat := bs.map (fun b => b.val)

/-- A script table for the concrete runs: the codepoints above 127 are ideographic. -/
def above127 (c : Nat) : Bool := decide (128 ≤ c)

/-- The walker of the specification with `pairBoundary`; the ideographic check is the
one of the specification over bytes as codepoints, with every codepoint above 127
ideographic; the numeric check accepts every segment with a digit in it. -/
def pairWords : Words where
  segments := specSegments pairBoundary
  AlphaNumeric := byteWords.AlphaNumeric
  BleveIdeographic :=
    specBleveIdeographic bytesAsCodepoints above127
  BleveNumeric := fun bs => bs.any isDigit


/-! ## Calls in a process that has made other calls -/

/-- A pointer moved past `k` backing arrays. -/
def Ptr.shift (k : Nat) (p : Ptr) : Ptr := ⟨k + p.gen, p.idx⟩

/-- The state `st` of a run as it is in a process whose heap already held `heap0` when
the run began: its backing arrays come after those of `heap0`. -/
def TokState.onHeap (heap0 : Heap) (st : TokState) : TokState :=
  { heap := heap0 ++ st.heap, pool := heap0.length + st.pool, poolIndex := st.poolIndex,
    result := st.result.map (Ptr.shift heap0.length) }

/-- The run of `Tokenize` in a process whose heap already holds `heap0`, the backing
arrays that earlier calls (of any instance, on any input) have allocated and may still
point into: `make` at line 44 allocates the first pool after them, and the pointers of
`result` point into the one heap of the process. -/
def tokenizeRunOn (heap0 : Heap) (w : Words) (guess : Int → Except Panic Int)
    (grow : Int → Int → Int → Except Panic Int) (input : List Byte) :
    Except Panic TokRun := do
  let inputBytes : Int := input.length
  let guessTokens ← guess inputBytes
  makeCap guessTokens
  let pool ← makeTokens guessTokens
  let st0 : TokState :=
    { heap := heap0 ++ [pool], pool := heap0.length, poolIndex := 0, result := [] }
  let st ← tokenizeLoop w grow inputBytes (w.segments input) st0
  pure { resultCap := guessTokens, final := st }

/-- The run of `(rt *UnicodeTokenizer) Tokenize(input)` in a process whose heap already
holds `heap0`. -/
def UnicodeTokenizer.runOn (_rt : UnicodeTokenizer) (heap0 : Heap) (w : Words)
    (input : List Byte) : Except Panic TokRun :=
  tokenizeRunOn heap0 w (guessTokensWith guessBytesPerToken) guessTokensRemaining input

/-! ## A walker that joins the bytes of a word, for runs the program can make -/

/-- A byte that belongs to a word: an ASCII letter or digit, the underscore, or a byte
of a multi-byte UTF-8 sequence. -/
def isWordByte (b : Byte) : Bool :=
  isDigit b || isLetter b || decide (b.val = 95) || decide (128 ≤ b.val)

/-- A boundary rule that keeps the bytes of a word together: the segment is the longest
run of word bytes, and any other byte is a segment of its own. -/
def runBoundary (rest : List Byte) : Nat := (rest.takeWhile isWordByte).length

/-- One UTF-8 sequence, as Go's `utf8.DecodeRune` reads it: the codepoint that begins
with `b0` and the number of continuation bytes it takes from `tl`; an invalid or
truncated sequence is U+FFFD and takes no continuation byte. -/
def utf8First (b0 : Byte) (tl : List Byte) : Nat × Nat :=
  if b0.val < 128 then (b0.val, 0)
  else if 194 ≤ b0.val ∧ b0.val ≤ 223 then
    match tl with
    | b1 :: _ =>
      if 128 ≤ b1.val ∧ b1.val ≤ 191 then ((b0.val - 192) * 64 + (b1.val - 128), 1)
      else (65533, 0)
    | _ => (65533, 0)
  else if 224 ≤ b0.val ∧ b0.val ≤ 239 then
    match tl with
    | b1 :: b2 :: _ =>
      if (if b0.val = 224 then 160 else 128) ≤ b1.val ∧
          b1.val ≤ (if b0.val = 237 then 159 else 191) ∧
          128 ≤ b2.val ∧ b2.val ≤ 191 then
        ((b0.val - 224) * 4096 + (b1.val - 128) * 64 + (b2.val - 128), 2)
      else (65533, 0)
    | _ => (65533, 0)
  else if 240 ≤ b0.val ∧ b0.val ≤ 244 then
    match tl with
    | b1 :: b2 :: b3 :: _ =>
      if (if b0.val = 240 then 144 else 128) ≤ b1.val ∧
          b1.val ≤ (if b0.val = 244 then 143 else 191) ∧
          128 ≤ b2.val ∧ b2.val ≤ 191 ∧ 128 ≤ b3.val ∧ b3.val ≤ 191 then
        ((b0.val - 240) * 262144 + (b1.val - 128) * 4096 + (b2.val - 128) * 64 +
          (b3.val - 128), 3)
      else (65533, 0)
    | _ => (65533, 0)
  else (65533, 0)

/-- The codepoints of a byte sequence; `skip` continuation bytes of the sequence just
read are still to be passed over. -/
def utf8Go : Nat → List Byte → List Nat
  | _, [] => []
  | skip + 1, _ :: tl => utf8Go skip tl
  | 0, b0 :: tl => (utf8First b0 tl).1 :: utf8Go (utf8First b0 tl).2 tl

/-- The codepoints of a UTF-8 byte sequence. -/
def utf8Decode (bs : List Byte) : List Nat := utf8Go 0 bs

/-- A script table for the concrete runs: Hiragana, Katakana and the CJK unified
ideographs. -/
def cjkTable (c : Nat) : Bool :=
  decide ((12352 ≤ c ∧ c ≤ 12543) ∨ (19968 ≤ c ∧ c ≤ 40959))

/-- A stand-in for the packages `words` and `filter` on the concrete runs below: the
walker of the specification with `runBoundary` (on these inputs the word-boundary rules
cut at the same places), the filter keeps a segment with a letter, a digit or a
multi-byte sequence in it, the ideographic check is the one of the specification over
UTF-8 and `cjkTable`, the numeric check accepts a segment of digits. -/
def runWords : Words where
  segments := specSegments runBoundary
  AlphaNumeric := byteWords.AlphaNumeric
  BleveIdeographic := specBleveIdeographic utf8Decode cjkTable
  BleveNumeric := fun bs => bs.all isDigit

/-- The 11 bytes of `"a b c d e f"`. -/
def spacedLetters : List Byte := [97, 32, 98, 32, 99, 32, 100, 32, 101, 32, 102]

/-- The state of `Tokenize("a b c d e f")` when `Next` stops on `"b"`: the token of
`"a"` fills the only record of the first pool. -/
def stateAtB : TokState :=
  { heap := [[⟨[97], 0, 1, 1, TokenType.AlphaNumeric⟩]], pool := 0, poolIndex := 1,
    result := [⟨0, 0⟩] }

/-- The state of `Tokenize("a b c d e f")` when `Next` stops on `"e"`: the tokens of
`"b"`, `"c"`, `"d"` fill the three records of the second pool. -/
def stateAtE : TokState :=
  { heap := [[⟨[97], 0, 1, 1, TokenType.AlphaNumeric⟩],
             [⟨[98], 2, 3, 2, TokenType.AlphaNumeric⟩, ⟨[99], 4, 5, 3, TokenType.AlphaNumeric⟩,
              ⟨[100], 6, 7, 4, TokenType.AlphaNumeric⟩]],
    pool := 1, poolIndex := 3, result := [⟨0, 0⟩, ⟨1, 0⟩, ⟨1, 1⟩, ⟨1, 2⟩] }

/-- The 5 bytes of `"カ_1"`: U+30AB (Katakana), the underscore and the digit one. -/
def katakanaMixed : List Byte := [227, 130, 171, 95, 49]

/-- The 3 bytes of `"カ"`. -/
def katakanaAlone : List Byte := [227, 130, 171]

/-- The walker `runWords` with a numeric check that accepts every segment, to see the
order of the two checks. -/
def eagerNumericWords : Words :=
  { runWords with BleveNumeric := fun _ => true }

/-- The heap a call of `Tokenize("x")` leaves behind: one pool with the token of
`"x"`. -/
def heapAfterX : Heap := [[⟨[120], 0, 1, 1, TokenType.AlphaNumeric⟩]]

/-- The tokens of `"ab 1"` when the bytes of a word are kept together. -/
def sampleWordTokens : List Token :=
  [ ⟨[97, 98], 0, 2, 1, TokenType.AlphaNumeric⟩, ⟨[49], 3, 4, 2, TokenType.Numeric⟩ ]


/-! # Theorems -/

/-! ## Arithmetic of `| 1` -/

theorem nat_lor_one (m : Nat) : m ||| 1 = 2 * (m / 2) + 1 := by
  apply Nat.eq_of_testBit_eq
  intro i
  rw [Nat.testBit_or]
  cases i with
  | zero =>
    simp [Nat.testBit_zero]
    omega
  | succ i =>
    simp [Nat.testBit_succ]
    congr 1
    omega

theorem or1_natCast (m : Nat) : or1 (m : Int) = ((2 * (m / 2) + 1 : Nat) : Int) := by
  have h : or1 (m : Int) = ((m ||| 1 : Nat) : Int) := rfl
  rw [h, nat_lor_one]

theorem or1_pos {x : Int} (hx : 0 ≤ x) : 1 ≤ or1 x := by
  obtain ⟨m, rfl⟩ := Int.eq_ofNat_of_zero_le hx
  rw [or1_natCast]
  omega

/-! ## Heap lemmas -/

theorem Heap.length_write (h : Heap) (q : Ptr) (t : Token) :
    (h.write q t).length = h.length := by
  simp [Heap.write]

theorem Heap.len_write (h : Heap) (q : Ptr) (t : Token) (g : Nat) :
    (h.write q t).len g = h.len g := by
  simp only [Heap.len, Heap.write, List.getD_eq_getElem?_getD, List.getElem?_set]
  by_cases hg : q.gen = g
  · subst hg
    by_cases hl : q.gen < h.length
    · simp [hl]
    · simp [hl, List.getElem?_eq_none (Nat.le_of_not_lt hl)]
  · simp [hg]

theorem Heap.read_write_ne (h : Heap) (p q : Ptr) (t : Token) (hne : p ≠ q) :
    (h.write q t).read p = h.read p := by
  simp only [Heap.read, Heap.write, List.getD_eq_getElem?_getD, List.getElem?_set]
  by_cases hg : q.gen = p.gen
  · have hi : q.idx ≠ p.idx := by
      intro hi
      apply hne
      cases p; cases q; simp_all
    by_cases hl : q.gen < h.length
    · simp [hg, hl, hg ▸ hl, List.getElem?_set, hi]
    · have hl2 : ¬ p.gen < h.length := hg ▸ hl
      simp [hg, hl2, List.getElem?_eq_none (Nat.le_of_not_lt hl2)]
  · simp [hg]

theorem Heap.read_write_same (h : Heap) (q : Ptr) (t : Token)
    (hg : q.gen < h.length) (hi : q.idx < h.len q.gen) :
    (h.write q t).read q = t := by
  simp only [Heap.len, List.getD_eq_getElem?_getD] at hi
  simp only [Heap.read, Heap.write, List.getD_eq_getElem?_getD, List.getElem?_set]
  rw [List.getElem?_eq_getElem hg] at hi ⊢
  simp only [Option.getD_some] at hi
  simp [hg, hi, List.getElem?_set]

theorem Heap.read_append (h : Heap) (pool : List Token) (p : Ptr) (hg : p.gen < h.length) :
    (h ++ [pool]).read p = h.read p := by
  simp only [Heap.read]
  rw [List.getD_append _ _ _ _ hg]

theorem Heap.len_append_old (h : Heap) (pool : List Token) (g : Nat) (hg : g < h.length) :
    (h ++ [pool]).len g = h.len g := by
  simp only [Heap.len]
  rw [List.getD_append _ _ _ _ hg]

theorem Heap.len_append_new (h : Heap) (pool : List Token) :
    (h ++ [pool]).len h.length = pool.length := by
  simp only [Heap.len]
  rw [List.getD_append_right _ _ _ _ (Nat.le_refl _)]
  simp

/-! ## The pool invariant -/

theorem PoolInv.length_eq {heap : Heap} {pool idx : Nat} {ptrs : List Ptr}
    {ts : List Token} (h : PoolInv heap pool idx ptrs ts) : ptrs.length = ts.length := by
  rw [← h.stream]
  simp [Heap.stream]

theorem PoolInv.grow_pool {heap : Heap} {pool idx : Nat} {ptrs : List Ptr} {ts : List Token}
    (h : PoolInv heap pool idx ptrs ts) (new : List Token) :
    PoolInv (heap ++ [new]) heap.length 0 ptrs ts := by
  refine ⟨by simp, Nat.zero_le _, ?_, ?_⟩
  · intro p hp
    have hlt := (h.fresh p hp).1
    refine ⟨by simp; omega, fun he => ?_⟩
    omega
  · rw [← h.stream]
    simp only [Heap.stream]
    apply List.map_congr_left
    intro p hp
    exact Heap.read_append heap new p (h.fresh p hp).1

theorem PoolInv.push {heap : Heap} {pool idx : Nat} {ptrs : List Ptr} {ts : List Token}
    (h : PoolInv heap pool idx ptrs ts) (hidx : idx < heap.len pool) (t : Token) :
    PoolInv (heap.write ⟨pool, idx⟩ t) pool (idx + 1) (ptrs ++ [⟨pool, idx⟩])
      (ts ++ [t]) := by
  have hpool : pool < heap.length := by have := h.pool_last; omega
  refine ⟨by rw [Heap.length_write]; exact h.pool_last, ?_, ?_, ?_⟩
  · rw [Heap.len_write]; exact hidx
  · intro p hp
    rw [Heap.length_write]
    rcases List.mem_append.1 hp with hp | hp
    · have := h.fresh p hp
      exact ⟨this.1, fun he => Nat.lt_succ_of_lt (this.2 he)⟩
    · have hp : p = ⟨pool, idx⟩ := by simpa using hp
      subst hp
      exact ⟨hpool, fun _ => Nat.lt_succ_self _⟩
  · simp only [Heap.stream, List.map_append, List.map_cons, List.map_nil]
    rw [Heap.read_write_same heap ⟨pool, idx⟩ t hpool hidx]
    congr 1
    rw [← h.stream]
    simp only [Heap.stream]
    apply List.map_congr_left
    intro p hp
    apply Heap.read_write_ne
    intro he
    have := (h.fresh p hp).2 (by rw [he])
    rw [he] at this
    exact Nat.lt_irrefl _ this

/-! ## The loop body of `Tokenize` -/

theorem makeTokens_ok {n : Int} {pool : List Token} (h : makeTokens n = .ok pool) :
    0 ≤ n ∧ pool.length = n.toNat := by
  unfold makeTokens at h
  split at h
  · cases h
  · cases h
    exact ⟨by omega, by simp⟩

theorem tokenizeBody_inv (w : Words) (grow : Int → Int → Int → Except Panic Int)
    (inputBytes : Int) (s : Segment) (st st' : TokState) (ts : List Token)
    (hinv : PoolInv st.heap st.pool st.poolIndex st.result ts)
    (hrun : tokenizeBody w grow inputBytes s st = .ok st') :
    PoolInv st'.heap st'.pool st'.poolIndex st'.result (ts ++ [tokenOf w s ts.length]) := by
  have key : ∀ (st1 : TokState) (ts : List Token),
      PoolInv st1.heap st1.pool st1.poolIndex st1.result ts →
      (if st1.poolIndex < st1.heap.len st1.pool then
        (pure { st1 with
            heap := st1.heap.write ⟨st1.pool, st1.poolIndex⟩
              { Term := s.Bytes, Start := s.Start, End := s.End,
                Position := (st1.result.length : Int) + 1, Typ := getType w s.Bytes },
            poolIndex := st1.poolIndex + 1,
            result := st1.result ++ [⟨st1.pool, st1.poolIndex⟩] } : Except Panic TokState)
       else .error Panic.indexOutOfRange) = .ok st' →
      PoolInv st'.heap st'.pool st'.poolIndex st'.result (ts ++ [tokenOf w s ts.length]) := by
    intro st1 ts h1 hr
    split at hr
    · rename_i hlt
      cases hr
      have := h1.push hlt (tokenOf w s ts.length)
      simpa [tokenOf, h1.length_eq] using this
    · cases hr
  unfold tokenizeBody at hrun
  by_cases hge : st.poolIndex ≥ st.heap.len st.pool
  · simp only [hge, if_true, bind, Except.bind] at hrun
    cases hg : grow inputBytes s.End st.result.length with
    | error e => simp [hg] at hrun
    | ok n =>
      cases hm : makeTokens n with
      | error e => simp [hg, hm] at hrun
      | ok pool =>
        simp only [hg, hm, pure, Except.pure] at hrun
        exact key { st with heap := st.heap ++ [pool], pool := st.heap.length, poolIndex := 0 }
          ts (hinv.grow_pool pool) hrun
  · simp only [hge, if_false, bind, Except.bind, pure, Except.pure] at hrun
    exact key st ts hinv hrun

theorem HeapPositive.write {heap : Heap} (h : HeapPositive heap) (q : Ptr) (t : Token) :
    HeapPositive (heap.write q t) := by
  intro g hg
  rw [Heap.length_write] at hg
  rw [Heap.len_write]
  exact h g hg

theorem HeapPositive.grow_heap {heap : Heap} (h : HeapPositive heap) (new : List Token)
    (hnew : 0 < new.length) : HeapPositive (heap ++ [new]) := by
  intro g hg
  by_cases hlt : g < heap.length
  · rw [Heap.len_append_old _ _ _ hlt]
    exact h g hlt
  · have : g = heap.length := by
      simp at hg
      omega
    subst this
    rw [Heap.len_append_new]
    exact hnew

theorem makeTokens_eq_ok {n : Int} (hn : 0 ≤ n) :
    makeTokens n = .ok (List.replicate n.toNat Token.zero) := by
  unfold makeTokens
  rw [if_neg (by omega)]

theorem tokenizeBody_ok (w : Words) (grow : Int → Int → Int → Except Panic Int)
    (inputBytes : Int) (s : Segment) (st : TokState)
    (hpos : HeapPositive st.heap)
    (hgrow : ∃ n, grow inputBytes s.End st.result.length = .ok n ∧ 0 < n) :
    ∃ st', tokenizeBody w grow inputBytes s st = .ok st' ∧ HeapPositive st'.heap := by
  unfold tokenizeBody
  by_cases hge : st.poolIndex ≥ st.heap.len st.pool
  · obtain ⟨n, hn, hn0⟩ := hgrow
    have hlen : 0 < (st.heap ++ [List.replicate n.toNat Token.zero]).len st.heap.length := by
      rw [Heap.len_append_new]
      simp
      omega
    simp only [hge, if_true, bind, Except.bind, hn, makeTokens_eq_ok (Int.le_of_lt hn0),
      pure, Except.pure, hlen]
    refine ⟨_, rfl, ?_⟩
    apply HeapPositive.write
    apply HeapPositive.grow_heap hpos
    simp
    omega
  · have hlt : st.poolIndex < st.heap.len st.pool := Nat.lt_of_not_le hge
    simp only [hge, if_false, bind, Except.bind, pure, Except.pure, hlt, if_true]
    exact ⟨_, rfl, hpos.write _ _⟩

/-! ## The loop of `Tokenize` -/

theorem tokenizeLoop_inv (w : Words) (grow : Int → Int → Int → Except Panic Int)
    (inputBytes : Int) (segs : List Segment) :
    ∀ (st st' : TokState) (ts : List Token),
      PoolInv st.heap st.pool st.poolIndex st.result ts →
      tokenizeLoop w grow inputBytes segs st = .ok st' →
      PoolInv st'.heap st'.pool st'.poolIndex st'.result
        ((segs.filter (fun s => w.AlphaNumeric s.Bytes)).foldl (naiveStep w) ts) := by
  induction segs with
  | nil =>
    intro st st' ts hinv hrun
    cases hrun
    simpa using hinv
  | cons s rest ih =>
    intro st st' ts hinv hrun
    unfold tokenizeLoop at hrun
    by_cases hk : w.AlphaNumeric s.Bytes = true
    · simp only [hk, if_true, bind, Except.bind] at hrun
      cases hb : tokenizeBody w grow inputBytes s st with
      | error e => simp [hb] at hrun
      | ok st1 =>
        simp only [hb] at hrun
        have h1 := tokenizeBody_inv w grow inputBytes s st st1 ts hinv hb
        have := ih st1 st' _ h1 hrun
        simpa [List.filter_cons, hk, naiveStep] using this
    · simp only [hk] at hrun
      have := ih st st' ts hinv hrun
      simpa [List.filter_cons, hk] using this

theorem tokenizeLoop_ok (w : Words) (grow : Int → Int → Int → Except Panic Int)
    (inputBytes : Int) (segs : List Segment)
    (hgrow : ∀ s ∈ segs, w.AlphaNumeric s.Bytes = true →
      ∀ l : Nat, ∃ n, grow inputBytes s.End l = .ok n ∧ 0 < n) :
    ∀ (st : TokState) (ts : List Token),
      PoolInv st.heap st.pool st.poolIndex st.result ts → HeapPositive st.heap →
      ∃ st', tokenizeLoop w grow inputBytes segs st = .ok st' ∧ HeapPositive st'.heap := by
  induction segs with
  | nil =>
    intro st ts _ hpos
    exact ⟨st, rfl, hpos⟩
  | cons s rest ih =>
    intro st ts hinv hpos
    have ih' := ih (fun x hx => hgrow x (List.mem_cons_of_mem _ hx))
    unfold tokenizeLoop
    by_cases hk : w.AlphaNumeric s.Bytes = true
    · obtain ⟨st1, hb, hpos1⟩ := tokenizeBody_ok w grow inputBytes s st hpos
        (hgrow s (List.mem_cons_self _ _) hk _)
      have h1 := tokenizeBody_inv w grow inputBytes s st st1 ts hinv hb
      obtain ⟨st', hl, hpos'⟩ := ih' st1 _ h1 hpos1
      refine ⟨st', ?_, hpos'⟩
      simp only [hk, if_true, bind, Except.bind, hb]
      exact hl
    · simp only [hk]
      exact ih' st ts hinv hpos

/-! ## The size computations -/

theorem goDiv_ok (a : Int) {b : Int} (hb : b ≠ 0) : goDiv a b = .ok (Int.tdiv a b) := by
  simp [goDiv, hb]

theorem guessTokensRemaining_pos {inputBytes bytesSoFar lenResult : Int}
    (h0 : 0 ≤ bytesSoFar) (h1 : bytesSoFar ≤ inputBytes) (hl : 0 ≤ lenResult) :
    ∃ n, guessTokensRemaining inputBytes bytesSoFar lenResult = .ok n ∧ 0 < n := by
  have ht : 1 ≤ or1 lenResult := or1_pos hl
  have hq : 0 ≤ Int.tdiv bytesSoFar (or1 lenResult) := Int.tdiv_nonneg h0 (by omega)
  have ha : 1 ≤ or1 (Int.tdiv bytesSoFar (or1 lenResult)) := or1_pos hq
  have hr : 0 ≤ Int.tdiv (inputBytes - bytesSoFar)
      (or1 (Int.tdiv bytesSoFar (or1 lenResult))) :=
    Int.tdiv_nonneg (by omega) (by omega)
  refine ⟨_, ?_, Int.lt_of_lt_of_le Int.zero_lt_one (or1_pos hr)⟩
  have e1 : or1 lenResult ≠ 0 := by omega
  have e2 : or1 (Int.tdiv bytesSoFar (or1 lenResult)) ≠ 0 := by omega
  simp only [guessTokensRemaining, bind, Except.bind, pure, Except.pure, goDiv_ok _ e1,
    goDiv_ok _ e2]

theorem guessTokensWith_pos (k inputBytes : Int) (hk : 0 < k) (hn : 0 ≤ inputBytes) :
    ∃ n, guessTokensWith k inputBytes = .ok n ∧ 0 < n := by
  have hq : 0 ≤ Int.tdiv inputBytes k := Int.tdiv_nonneg hn (by omega)
  refine ⟨_, ?_, Int.lt_of_lt_of_le Int.zero_lt_one (or1_pos hq)⟩
  have e1 : k ≠ 0 := by omega
  simp only [guessTokensWith, bind, Except.bind, pure, Except.pure, goDiv_ok _ e1]

/-! ## The naive reference -/

theorem naive_length (w : Words) (segs : List Segment) :
    ∀ acc : List Token, (segs.foldl (naiveStep w) acc).length = acc.length + segs.length := by
  induction segs with
  | nil => intro acc; simp
  | cons s rest ih =>
    intro acc
    simp only [List.foldl_cons, ih, naiveStep, List.length_append, List.length_cons,
      List.length_nil]
    omega

theorem naive_getElem_opt (w : Words) (segs : List Segment) :
    ∀ (acc : List Token) (i : Nat),
      (segs.foldl (naiveStep w) acc)[i]? =
        if i < acc.length then acc[i]?
        else segs[i - acc.length]?.map (fun s => tokenOf w s i) := by
  induction segs with
  | nil =>
    intro acc i
    by_cases h : i < acc.length
    · simp [h]
    · simp [h, List.getElem?_eq_none (Nat.le_of_not_lt h)]
  | cons s rest ih =>
    intro acc i
    rw [List.foldl_cons, ih]
    simp only [naiveStep, List.length_append, List.length_cons, List.length_nil]
    by_cases h1 : i < acc.length
    · have h2 : i < acc.length + (0 + 1) := by omega
      rw [if_pos h2, if_pos h1, List.getElem?_append_left h1]
    · by_cases h3 : i = acc.length
      · subst h3
        simp
      · have h2 : ¬ i < acc.length + (0 + 1) := by omega
        rw [if_neg h2, if_neg h1]
        have e : i - acc.length = (i - (acc.length + (0 + 1))) + 1 := by omega
        rw [e, List.getElem?_cons_succ]

theorem tokenizeNaive_length (w : Words) (input : List Byte) :
    (tokenizeNaive w input).length = (keptSegments w input).length := by
  have := naive_length w (keptSegments w input) []
  simpa [tokenizeNaive, naiveStep] using this

theorem tokenizeNaive_getElem_opt (w : Words) (input : List Byte) (i : Nat) :
    (tokenizeNaive w input)[i]? = (keptSegments w input)[i]?.map (fun s => tokenOf w s i) := by
  have := naive_getElem_opt w (keptSegments w input) [] i
  simpa [tokenizeNaive, naiveStep] using this

theorem tokenizeNaive_getElem (w : Words) (input : List Byte) (i : Nat)
    (h : i < (tokenizeNaive w input).length) :
    (tokenizeNaive w input)[i] =
      tokenOf w ((keptSegments w input).get ⟨i, by rw [← tokenizeNaive_length]; exact h⟩) i := by
  have hk : i < (keptSegments w input).length := by rw [← tokenizeNaive_length]; exact h
  have := tokenizeNaive_getElem_opt w input i
  rw [List.getElem?_eq_getElem h, List.getElem?_eq_getElem hk] at this
  simpa using this

theorem tokenizeNaive_mem (w : Words) (input : List Byte) (t : Token)
    (ht : t ∈ tokenizeNaive w input) :
    ∃ s ∈ keptSegments w input, ∃ n : Nat, t = tokenOf w s n := by
  obtain ⟨i, hi, rfl⟩ := List.getElem_of_mem ht
  rw [tokenizeNaive_getElem w input i hi]
  exact ⟨_, List.getElem_mem _, i, rfl⟩

theorem keptSegments_mem (w : Words) (input : List Byte) (s : Segment)
    (hs : s ∈ keptSegments w input) :
    s ∈ w.segments input ∧ w.AlphaNumeric s.Bytes = true := by
  simpa [keptSegments] using hs

/-! ## Whole runs -/

theorem tokenizeRun_sound (w : Words) (guess : Int → Except Panic Int)
    (grow : Int → Int → Int → Except Panic Int) (input : List Byte) (r : TokRun)
    (hrun : tokenizeRun w guess grow input = .ok r) :
    PoolInv r.final.heap r.final.pool r.final.poolIndex r.final.result
      (tokenizeNaive w input) := by
  unfold tokenizeRun at hrun
  simp only [bind, Except.bind, pure, Except.pure] at hrun
  cases hg : guess (input.length : Int) with
  | error e => simp [hg] at hrun
  | ok g =>
    cases hc : makeCap g with
    | error e => simp [hg, hc] at hrun
    | ok u =>
      cases hm : makeTokens g with
      | error e => simp [hg, hc, hm] at hrun
      | ok pool =>
        simp only [hg, hc, hm] at hrun
        cases hl : tokenizeLoop w grow (input.length : Int) (w.segments input)
            { heap := [pool], pool := 0, poolIndex := 0, result := [] } with
        | error e => simp [hl] at hrun
        | ok st =>
          simp only [hl] at hrun
          cases hrun
          have h0 : PoolInv [pool] 0 0 [] [] :=
            ⟨rfl, Nat.zero_le _, fun p hp => (by cases hp), rfl⟩
          exact tokenizeLoop_inv w grow _ _ _ _ _ h0 hl

theorem tokenizeRun_ok (w : Words) (guess : Int → Except Panic Int)
    (grow : Int → Int → Int → Except Panic Int) (input : List Byte) (g : Int)
    (hguess : guess (input.length : Int) = .ok g) (hg : 0 < g)
    (hgrow : ∀ s ∈ w.segments input, w.AlphaNumeric s.Bytes = true →
      ∀ l : Nat, ∃ n, grow (input.length : Int) s.End l = .ok n ∧ 0 < n) :
    ∃ r, tokenizeRun w guess grow input = .ok r ∧ r.resultCap = g ∧
      HeapPositive r.final.heap := by
  have h0 : PoolInv [List.replicate g.toNat Token.zero] 0 0 [] [] :=
    ⟨rfl, Nat.zero_le _, fun p hp => (by cases hp), rfl⟩
  have hp0 : HeapPositive [List.replicate g.toNat Token.zero] := by
    intro k hk
    have : k = 0 := by simpa using hk
    subst this
    simp [Heap.len]
    omega
  obtain ⟨st, hl, hpos⟩ := tokenizeLoop_ok w grow _ _ hgrow
    { heap := [List.replicate g.toNat Token.zero], pool := 0, poolIndex := 0, result := [] }
    [] h0 hp0
  refine ⟨⟨g, st⟩, ?_, rfl, hpos⟩
  unfold tokenizeRun
  have hc : makeCap g = .ok () := by
    unfold makeCap
    rw [if_neg (by omega)]
  simp only [bind, Except.bind, pure, Except.pure, hguess, hc,
    makeTokens_eq_ok (Int.le_of_lt hg), hl]

theorem Tokenize_sound (rt : UnicodeTokenizer) (w : Words) (input : List Byte)
    (ts : List Token) (h : rt.Tokenize w input = .ok ts) : ts = tokenizeNaive w input := by
  unfold UnicodeTokenizer.Tokenize at h
  simp only [bind, Except.bind, pure, Except.pure] at h
  cases hr : rt.run w input with
  | error e => simp [hr] at h
  | ok r =>
    simp only [hr] at h
    cases h
    exact (tokenizeRun_sound w _ _ input r hr).stream

theorem run_ok (rt : UnicodeTokenizer) (w : Words) (input : List Byte)
    (h : EndInRange w input) :
    ∃ r, rt.run w input = .ok r ∧ 0 < r.resultCap ∧ HeapPositive r.final.heap := by
  obtain ⟨g, hg, hg0⟩ :=
    guessTokensWith_pos guessBytesPerToken (input.length : Int) (by decide) (by omega)
  obtain ⟨r, hr, hcap, hpos⟩ := tokenizeRun_ok w (guessTokensWith guessBytesPerToken)
    guessTokensRemaining input g hg hg0
    (fun s hs hk l => guessTokensRemaining_pos (h s hs hk).1 (h s hs hk).2 (by omega))
  exact ⟨r, hr, by rw [hcap]; exact hg0, hpos⟩

theorem Tokenize_ok (rt : UnicodeTokenizer) (w : Words) (input : List Byte)
    (h : EndInRange w input) : rt.Tokenize w input = .ok (tokenizeNaive w input) := by
  obtain ⟨r, hr, _, _⟩ := run_ok rt w input h
  have hs := (tokenizeRun_sound w _ _ input r hr).stream
  unfold UnicodeTokenizer.Tokenize
  simp only [bind, Except.bind, pure, Except.pure, hr, TokRun.stream, hs]

/-! ## Claims -/

theorem or1_neg_two : or1 (-2) = -1 := by
  show Int.negSucc (Nat.ldiff 1 1) = -1
  have h : Nat.ldiff 1 1 = 0 := by
    apply Nat.eq_of_testBit_eq
    intro i
    simp [Nat.testBit_ldiff]
  rw [h]
  rfl

theorem guessTokensRemaining_overrun : guessTokensRemaining 3 9 2 = .ok (-1) := by
  have e1 : or1 2 = 3 := by decide
  have e2 : or1 3 = 3 := by decide
  have e3 : goDiv 9 3 = .ok 3 := by decide
  have e4 : goDiv (3 - 9) 3 = .ok (-2) := by decide
  simp only [guessTokensRemaining, e1, bind, Except.bind, e3, e2, e4, pure, Except.pure,
    or1_neg_two]

/-- Why the walker contract is assumed where `Tokenize` has to return: on the three
bytes `"abc"`, a walker whose third segment claims `End() = 9` makes line 55 compute
`((3 - 9) / 3) | 1 = -1`, and `make` panics. -/
theorem Tokenize_panics_on_overrun :
    NewUnicodeTokenizer.Tokenize overrunWords [97, 98, 99] =
      .error Panic.makeNegativeLen := by
  have hfun : guessTokensRemaining =
      fun a b l => if a = 3 ∧ b = 9 ∧ l = 2 then .ok (-1)
        else guessTokensRemaining a b l := by
    funext a b l
    split
    · rename_i h
      obtain ⟨rfl, rfl, rfl⟩ := h
      exact guessTokensRemaining_overrun
    · rfl
  unfold UnicodeTokenizer.Tokenize UnicodeTokenizer.run
  rw [hfun]
  decide

theorem Tokenize_returns (rt : UnicodeTokenizer) (w : Words) (input : List Byte)
    (h : EndInRange w input) : ∃ ts, rt.Tokenize w input = .ok ts :=
  ⟨_, Tokenize_ok rt w input h⟩

/-- C1: the token at 0-based index `i` of `Tokenize(input)` has `Position = i + 1`,
whatever was filtered out and however often the pool was re-allocated; and `Tokenize`
does return a stream when the walker's `End()` stays within the input. -/
theorem Tokenize_position (rt : UnicodeTokenizer) (w : Words) (input : List Byte) :
    (EndInRange w input → ∃ ts, rt.Tokenize w input = .ok ts) ∧
    ∀ ts, rt.Tokenize w input = .ok ts →
      ∀ (i : Nat) (hi : i < ts.length), (ts.get ⟨i, hi⟩).Position = (i : Int) + 1 := by
  refine ⟨Tokenize_returns rt w input, ?_⟩
  intro ts h i hi
  have e := Tokenize_sound rt w input ts h
  subst e
  rw [List.get_eq_getElem, tokenizeNaive_getElem w input i hi]
  rfl

theorem Tokenize_position_witness :
    EndInRange byteWords sampleInput ∧
    (∃ ts, NewUnicodeTokenizer.Tokenize byteWords sampleInput = .ok ts) ∧
    NewUnicodeTokenizer.Tokenize byteWords sampleInput = .ok sampleTokens ∧
    (sampleTokens.get ⟨2, by decide⟩).Position = 3 :=
  ⟨by unfold EndInRange; decide,
   (Tokenize_position NewUnicodeTokenizer byteWords sampleInput).1
     (by unfold EndInRange; decide),
   by decide,
   (Tokenize_position NewUnicodeTokenizer byteWords sampleInput).2 sampleTokens (by decide)
     2 (by decide)⟩

theorem slice_length (input : List Byte) (lo hi : Int) (h0 : 0 ≤ lo) (h1 : lo ≤ hi)
    (h2 : hi ≤ (input.length : Int)) : ((slice input lo hi).length : Int) = hi - lo := by
  simp only [slice, List.length_take, List.length_drop]
  omega

/-- C2: given a walker whose segments are non-empty, in-range views of the input,
`Tokenize(input)` returns, and every token `t` has `0 <= t.Start < t.End <= len(input)`,
`t.Term` is `input[t.Start:t.End]` and `len(t.Term) = t.End - t.Start`. -/
theorem Tokenize_offsets (rt : UnicodeTokenizer) (w : Words) (input : List Byte)
    (hv : SegmentsAreViews w input) :
    ∃ ts, rt.Tokenize w input = .ok ts ∧
      ∀ t ∈ ts, 0 ≤ t.Start ∧ t.Start < t.End ∧ t.End ≤ (input.length : Int) ∧
        t.Term = slice input t.Start t.End ∧ (t.Term.length : Int) = t.End - t.Start := by
  have hr : EndInRange w input := by
    intro s hs _
    have := hv s hs
    exact ⟨by omega, this.2.2.1⟩
  refine ⟨_, Tokenize_ok rt w input hr, ?_⟩
  intro t ht
  obtain ⟨s, hs, n, rfl⟩ := tokenizeNaive_mem w input t ht
  obtain ⟨h0, h1, h2, h3⟩ := hv s (keptSegments_mem w input s hs).1
  refine ⟨h0, h1, h2, h3, ?_⟩
  show ((s.Bytes.length : Nat) : Int) = s.End - s.Start
  rw [h3]
  exact slice_length input s.Start s.End h0 (by omega) h2

theorem Tokenize_offsets_witness :
    SegmentsAreViews byteWords sampleInput ∧
    ∃ ts, NewUnicodeTokenizer.Tokenize byteWords sampleInput = .ok ts ∧
      ∀ t ∈ ts, 0 ≤ t.Start ∧ t.Start < t.End ∧ t.End ≤ (sampleInput.length : Int) ∧
        t.Term = slice sampleInput t.Start t.End ∧
        (t.Term.length : Int) = t.End - t.Start :=
  ⟨by unfold SegmentsAreViews; decide,
   Tokenize_offsets NewUnicodeTokenizer byteWords sampleInput
     (by unfold SegmentsAreViews; decide)⟩

/-- C3: given a walker that yields non-overlapping segments in increasing offset order,
every two consecutive tokens of `Tokenize(input)` satisfy
`token[i].End <= token[i+1].Start`; and `Tokenize` does return a stream when the
walker's `End()` stays within the input. -/
theorem Tokenize_ordered (rt : UnicodeTokenizer) (w : Words) (input : List Byte)
    (ho : SegmentsOrdered w input) :
    (EndInRange w input → ∃ ts, rt.Tokenize w input = .ok ts) ∧
    ∀ ts, rt.Tokenize w input = .ok ts →
      ∀ (i : Nat) (hi : i + 1 < ts.length),
        (ts.get ⟨i, Nat.lt_of_succ_lt hi⟩).End ≤ (ts.get ⟨i + 1, hi⟩).Start := by
  refine ⟨Tokenize_returns rt w input, ?_⟩
  intro ts h i hi
  have e := Tokenize_sound rt w input ts h
  subst e
  have hp : (keptSegments w input).Pairwise (fun a b => a.End ≤ b.Start) :=
    List.Pairwise.filter _ ho
  have hk : i + 1 < (keptSegments w input).length := by
    rw [← tokenizeNaive_length]; exact hi
  have := List.pairwise_iff_getElem.1 hp i (i + 1) (Nat.lt_of_succ_lt hk) hk (Nat.lt_succ_self i)
  rw [List.get_eq_getElem, List.get_eq_getElem,
    tokenizeNaive_getElem w input i (Nat.lt_of_succ_lt hi),
    tokenizeNaive_getElem w input (i + 1) hi]
  exact this

theorem Tokenize_ordered_witness :
    SegmentsOrdered byteWords sampleInput ∧
    EndInRange byteWords sampleInput ∧
    (∃ ts, NewUnicodeTokenizer.Tokenize byteWords sampleInput = .ok ts) ∧
    NewUnicodeTokenizer.Tokenize byteWords sampleInput = .ok sampleTokens ∧
    (sampleTokens.get ⟨1, by decide⟩).End ≤ (sampleTokens.get ⟨2, by decide⟩).Start :=
  ⟨by unfold SegmentsOrdered; decide, by unfold EndInRange; decide,
   (Tokenize_ordered NewUnicodeTokenizer byteWords sampleInput
     (by unfold SegmentsOrdered; decide)).1 (by unfold EndInRange; decide),
   by decide,
   (Tokenize_ordered NewUnicodeTokenizer byteWords sampleInput
     (by unfold SegmentsOrdered; decide)).2 sampleTokens (by decide) 1 (by decide)⟩

/-- C4: `Tokenize(input)` has exactly one token for each walker segment that
`filter.AlphaNumeric` accepts, in the order of those segments, and none for any other
segment: the bytes and offsets of the tokens are the list of accepted segments, the
number of tokens is the number of accepted segments, and the positions count the
tokens only; and `Tokenize` does return a stream when the walker's `End()` stays within
the input. -/
theorem Tokenize_kept (rt : UnicodeTokenizer) (w : Words) (input : List Byte) :
    (EndInRange w input → ∃ ts, rt.Tokenize w input = .ok ts) ∧
    ∀ ts, rt.Tokenize w input = .ok ts →
      ts.map Token.segment = (w.segments input).filter (fun s => w.AlphaNumeric s.Bytes) ∧
      ts.length = ((w.segments input).filter (fun s => w.AlphaNumeric s.Bytes)).length ∧
      ∀ (i : Nat) (hi : i < ts.length), (ts.get ⟨i, hi⟩).Position = (i : Int) + 1 := by
  refine ⟨Tokenize_returns rt w input, ?_⟩
  intro ts h
  have e := Tokenize_sound rt w input ts h
  subst e
  refine ⟨?_, tokenizeNaive_length w input, ?_⟩
  · apply List.ext_getElem?
    intro i
    rw [List.getElem?_map, tokenizeNaive_getElem_opt w input i]
    show Option.map Token.segment (Option.map _ (keptSegments w input)[i]?) =
      (keptSegments w input)[i]?
    cases (keptSegments w input)[i]? with
    | none => rfl
    | some s => rfl
  · intro i hi
    rw [List.get_eq_getElem, tokenizeNaive_getElem w input i hi]
    rfl

theorem Tokenize_kept_witness :
    EndInRange byteWords sampleInput ∧
    (∃ ts, NewUnicodeTokenizer.Tokenize byteWords sampleInput = .ok ts) ∧
    NewUnicodeTokenizer.Tokenize byteWords sampleInput = .ok sampleTokens ∧
    sampleTokens.map Token.segment =
      (byteWords.segments sampleInput).filter (fun s => byteWords.AlphaNumeric s.Bytes) :=
  ⟨by unfold EndInRange; decide,
   (Tokenize_kept NewUnicodeTokenizer byteWords sampleInput).1
     (by unfold EndInRange; decide),
   by decide,
   ((Tokenize_kept NewUnicodeTokenizer byteWords sampleInput).2 sampleTokens
     (by decide)).1⟩

/-- C5: `getType` returns `Ideographic` exactly when the ideographic check accepts the
segment (also when the numeric check accepts it too), `Numeric` exactly when the
ideographic check rejects and the numeric check accepts, and `AlphaNumeric` exactly
when both reject; and every token's `Type` is `getType` of that token's `Term`. -/
theorem getType_priority (rt : UnicodeTokenizer) (w : Words) (segment input : List Byte) :
    (getType w segment = TokenType.Ideographic ↔ w.BleveIdeographic segment = true) ∧
    (getType w segment = TokenType.Numeric ↔
      w.BleveIdeographic segment = false ∧ w.BleveNumeric segment = true) ∧
    (getType w segment = TokenType.AlphaNumeric ↔
      w.BleveIdeographic segment = false ∧ w.BleveNumeric segment = false) ∧
    (EndInRange w input → ∃ ts, rt.Tokenize w input = .ok ts) ∧
    ∀ ts, rt.Tokenize w input = .ok ts → ∀ t ∈ ts, t.Typ = getType w t.Term := by
  refine ⟨?_, ?_, ?_, Tokenize_returns rt w input, ?_⟩
  · unfold getType
    cases w.BleveIdeographic segment <;> cases w.BleveNumeric segment <;> simp
  · unfold getType
    cases w.BleveIdeographic segment <;> cases w.BleveNumeric segment <;> simp
  · unfold getType
    cases w.BleveIdeographic segment <;> cases w.BleveNumeric segment <;> simp
  · intro ts h t ht
    have e := Tokenize_sound rt w input ts h
    subst e
    obtain ⟨s, _, n, rfl⟩ := tokenizeNaive_mem w input t ht
    rfl

theorem getType_priority_witness :
    byteWords.BleveIdeographic [200, 49] = true ∧ byteWords.BleveNumeric [49] = true ∧
    getType byteWords [200, 49] = TokenType.Ideographic ∧
    EndInRange byteWords sampleInput ∧
    (∃ ts, NewUnicodeTokenizer.Tokenize byteWords sampleInput = .ok ts) ∧
    NewUnicodeTokenizer.Tokenize byteWords sampleInput = .ok sampleTokens ∧
    ∀ t ∈ sampleTokens, t.Typ = getType byteWords t.Term :=
  ⟨by decide, by decide,
   (getType_priority NewUnicodeTokenizer byteWords [200, 49] sampleInput).1.2 (by decide),
   by unfold EndInRange; decide,
   (getType_priority NewUnicodeTokenizer byteWords [] sampleInput).2.2.2.1
     (by unfold EndInRange; decide),
   by decide,
   (getType_priority NewUnicodeTokenizer byteWords [] sampleInput).2.2.2.2 sampleTokens
     (by decide)⟩

theorem tokenizeWith_eq_naive (w : Words) (guess : Int → Except Panic Int)
    (grow : Int → Int → Int → Except Panic Int) (input : List Byte)
    (hguess : ∃ g, guess (input.length : Int) = .ok g ∧ 0 < g)
    (hgrow : ∀ s ∈ w.segments input, w.AlphaNumeric s.Bytes = true →
      ∀ l : Nat, ∃ n, grow (input.length : Int) s.End l = .ok n ∧ 0 < n) :
    tokenizeWith w guess grow input = .ok (tokenizeNaive w input) := by
  obtain ⟨g, hg, hg0⟩ := hguess
  obtain ⟨r, hr, _, _⟩ := tokenizeRun_ok w guess grow input g hg hg0 hgrow
  have hs := (tokenizeRun_sound w guess grow input r hr).stream
  unfold tokenizeWith
  simp only [bind, Except.bind, pure, Except.pure, hr, TokRun.stream, hs]

/-- C7: the allocation strategy never affects the result.  With the walker's `End()`
within the input, `Tokenize(input)` is the naive reference (the k-th kept segment
becomes the token with its bytes, offsets, position k and `getType` of its bytes, by
plain append), and so is `Tokenize` with the constant 6 replaced by any positive
constant; and with the initial size and every pool size replaced by arbitrary positive
values the result is the naive reference for every walker. -/
theorem Tokenize_eq_naive (rt : UnicodeTokenizer) (w : Words) (input : List Byte) :
    (EndInRange w input →
      rt.Tokenize w input = .ok (tokenizeNaive w input) ∧
      ∀ k : Int, 0 < k →
        tokenizeWith w (guessTokensWith k) guessTokensRemaining input =
          .ok (tokenizeNaive w input)) ∧
    ∀ (guess : Int → Except Panic Int) (grow : Int → Int → Int → Except Panic Int),
      (∃ g, guess (input.length : Int) = .ok g ∧ 0 < g) →
      (∀ b l : Int, ∃ n, grow (input.length : Int) b l = .ok n ∧ 0 < n) →
      tokenizeWith w guess grow input = .ok (tokenizeNaive w input) := by
  refine ⟨fun h => ⟨Tokenize_ok rt w input h, fun k hk => ?_⟩, ?_⟩
  · exact tokenizeWith_eq_naive w _ _ input
      (guessTokensWith_pos k (input.length : Int) hk (by omega))
      (fun s hs hkeep l => guessTokensRemaining_pos (h s hs hkeep).1 (h s hs hkeep).2
        (by omega))
  · intro guess grow hguess hgrow
    exact tokenizeWith_eq_naive w guess grow input hguess (fun s _ _ l => hgrow s.End l)

theorem Tokenize_eq_naive_witness :
    EndInRange byteWords sampleInput ∧
    NewUnicodeTokenizer.Tokenize byteWords sampleInput =
      .ok (tokenizeNaive byteWords sampleInput) ∧
    tokenizeNaive byteWords sampleInput = sampleTokens ∧
    tokenizeWith byteWords (fun _ => .ok 2) (fun _ _ _ => .ok 5) sampleInput =
      .ok (tokenizeNaive byteWords sampleInput) :=
  ⟨by unfold EndInRange; decide,
   ((Tokenize_eq_naive NewUnicodeTokenizer byteWords sampleInput).1
     (by unfold EndInRange; decide)).1,
   by decide,
   (Tokenize_eq_naive NewUnicodeTokenizer byteWords sampleInput).2
     (fun _ => .ok 2) (fun _ _ _ => .ok 5) ⟨2, rfl, by decide⟩
     (fun _ _ => ⟨5, rfl, by decide⟩)⟩

/-- C8: for every byte buffer, given a walker whose `End()` stays within
`0 <= End() <= len(input)`, `Tokenize` returns a token stream and ends in no panic:
no index outside the pool, no division by zero, no `make` of a negative length; the
capacity of `result` and the length of every pool that was allocated are positive. -/
theorem Tokenize_total (rt : UnicodeTokenizer) (w : Words) (input : List Byte)
    (h : EndInRange w input) :
    ∃ r, rt.run w input = .ok r ∧ rt.Tokenize w input = .ok r.stream ∧
      (∀ e : Panic, rt.run w input ≠ .error e) ∧
      0 < r.resultCap ∧ HeapPositive r.final.heap := by
  obtain ⟨r, hr, hcap, hpos⟩ := run_ok rt w input h
  refine ⟨r, hr, ?_, ?_, hcap, hpos⟩
  · unfold UnicodeTokenizer.Tokenize
    simp only [bind, Except.bind, pure, Except.pure, hr]
  · intro e he
    rw [hr] at he
    cases he

theorem Tokenize_total_witness :
    EndInRange byteWords sampleInput ∧
    ∃ r, NewUnicodeTokenizer.run byteWords sampleInput = .ok r ∧
      NewUnicodeTokenizer.Tokenize byteWords sampleInput = .ok r.stream ∧
      (∀ e : Panic, NewUnicodeTokenizer.run byteWords sampleInput ≠ .error e) ∧
      0 < r.resultCap ∧ HeapPositive r.final.heap :=
  ⟨by unfold EndInRange; decide,
   Tokenize_total NewUnicodeTokenizer byteWords sampleInput
     (by unfold EndInRange; decide)⟩

theorem tokenizeLoop_none (w : Words) (grow : Int → Int → Int → Except Panic Int)
    (inputBytes : Int) (segs : List Segment)
    (h : ∀ s ∈ segs, w.AlphaNumeric s.Bytes = false) (st : TokState) :
    tokenizeLoop w grow inputBytes segs st = .ok st := by
  induction segs with
  | nil => rfl
  | cons s rest ih =>
    unfold tokenizeLoop
    rw [h s (List.mem_cons_self _ _)]
    simpa using ih (fun x hx => h x (List.mem_cons_of_mem _ hx))

theorem run_none (rt : UnicodeTokenizer) (w : Words) (input : List Byte)
    (h : ∀ s ∈ w.segments input, w.AlphaNumeric s.Bytes = false) :
    ∃ g : Int, 1 ≤ g ∧
      rt.run w input = .ok
        { resultCap := g,
          final := { heap := [List.replicate g.toNat Token.zero], pool := 0,
                     poolIndex := 0, result := [] } } := by
  obtain ⟨g, hg, hg0⟩ :=
    guessTokensWith_pos guessBytesPerToken (input.length : Int) (by decide) (by omega)
  refine ⟨g, by omega, ?_⟩
  have hc : makeCap g = .ok () := by
    unfold makeCap
    rw [if_neg (by omega)]
  unfold UnicodeTokenizer.run tokenizeRun
  simp only [bind, Except.bind, pure, Except.pure, hg, hc,
    makeTokens_eq_ok (Int.le_of_lt hg0), tokenizeLoop_none w _ _ _ h]

/-- C10: for the empty input (on which the walker yields no segment), and for every
input none of whose segments is accepted by `filter.AlphaNumeric`, `Tokenize` returns
the empty token stream, although it made `result` with a capacity of at least 1 and
allocated one pool of at least one record. -/
theorem Tokenize_empty (rt : UnicodeTokenizer) (w : Words) :
    (w.segments [] = [] → rt.Tokenize w [] = .ok []) ∧
    ∀ input : List Byte, (∀ s ∈ w.segments input, w.AlphaNumeric s.Bytes = false) →
      rt.Tokenize w input = .ok [] ∧
      ∃ r pool, rt.run w input = .ok r ∧ r.final.result = [] ∧ 1 ≤ r.resultCap ∧
        r.final.heap = [pool] ∧ 1 ≤ pool.length := by
  have main : ∀ input : List Byte,
      (∀ s ∈ w.segments input, w.AlphaNumeric s.Bytes = false) →
      rt.Tokenize w input = .ok [] ∧
      ∃ r pool, rt.run w input = .ok r ∧ r.final.result = [] ∧ 1 ≤ r.resultCap ∧
        r.final.heap = [pool] ∧ 1 ≤ pool.length := by
    intro input h
    obtain ⟨g, hg, hr⟩ := run_none rt w input h
    refine ⟨?_, _, _, hr, rfl, hg, rfl, ?_⟩
    · unfold UnicodeTokenizer.Tokenize
      simp only [bind, Except.bind, pure, Except.pure, hr]
      rfl
    · simp
      omega
  refine ⟨fun h0 => (main [] ?_).1, main⟩
  intro s hs
  rw [h0] at hs
  cases hs

theorem Tokenize_empty_witness :
    byteWords.segments [] = [] ∧
    NewUnicodeTokenizer.Tokenize byteWords [] = .ok [] ∧
    (∀ s ∈ byteWords.segments [32, 46, 46, 32], byteWords.AlphaNumeric s.Bytes = false) ∧
    NewUnicodeTokenizer.Tokenize byteWords [32, 46, 46, 32] = .ok [] :=
  ⟨rfl, (Tokenize_empty NewUnicodeTokenizer byteWords).1 rfl, by decide,
   ((Tokenize_empty NewUnicodeTokenizer byteWords).2 [32, 46, 46, 32] (by decide)).1⟩

/-! ## The previous implementation -/

theorem previousResult_eq_all (st : PrevState) : previousResult st = st.all := by
  unfold previousResult PrevState.all
  cases h : st.rvx with
  | nil => simp
  | cons r rs => simp

theorem guessRemaining_ok (inputBytes : Int) (lenRv : Nat) (end_ : Int) :
    ∃ r, guessRemaining inputBytes (lenRv : Int) end_ = .ok r := by
  have e1 : (lenRv : Int) + 1 ≠ 0 := by omega
  unfold guessRemaining
  simp only [bind, Except.bind, goDiv_ok _ e1]
  by_cases h : Int.tdiv end_ ((lenRv : Int) + 1) < 1
  · simp only [h, if_true]
    exact ⟨_, goDiv_ok _ (by decide)⟩
  · simp only [h, if_false]
    exact ⟨_, goDiv_ok _ (by omega)⟩

theorem previousRefill_spec (inputBytes end_ : Int) (st : PrevState) (ts : List Token)
    (hinv : PrevInv st ts) :
    ∃ st1, previousRefill inputBytes end_ st = .ok st1 ∧ PrevInv st1 ts ∧
      st1.taNext < st1.heap.len st1.ta ∧ st1.start = st.start := by
  unfold previousRefill
  by_cases hge : st.taNext ≥ st.heap.len st.ta
  · obtain ⟨r, hr⟩ := guessRemaining_ok inputBytes st.rv.length end_
    simp only [hge, if_true, bind, Except.bind, hr, pure, Except.pure]
    generalize hn : (if (if r > 1000 then 1000 else r) < 1 then 1
      else (if r > 1000 then 1000 else r) : Int) = n
    have hn1 : 1 ≤ n := by
      rw [← hn]
      split <;> omega
    rw [makeTokens_eq_ok (by omega)]
    refine ⟨_, rfl, ⟨hinv.pool.grow_pool _, hinv.pos⟩, ?_, rfl⟩
    show 0 < (st.heap ++ [List.replicate n.toNat Token.zero]).len st.heap.length
    rw [Heap.len_append_new]
    simp
    omega
  · simp only [hge, if_false]
    exact ⟨st, rfl, hinv, Nat.lt_of_not_le hge, rfl⟩

theorem foldl_append_chunks (rvx : List (List Ptr)) (rv : List Ptr) :
    (rvx ++ [rv]).foldl (fun rall r => rall ++ r) [] =
      rvx.foldl (fun rall r => rall ++ r) [] ++ rv := by
  rw [List.foldl_append]
  rfl

theorem previousEmit_spec (s : OldSegment) (end_ : Int) (st : PrevState) (ts : List Token)
    (hinv : PrevInv st ts) (hlt : st.taNext < st.heap.len st.ta) :
    ∃ st2, previousEmit s end_ st = .ok st2 ∧ st2.start = st.start ∧
      PrevInv st2 (previousStep ts (⟨s.Bytes, st.start, end_⟩, s.Typ)) := by
  have hp := hinv.pool.push hlt (oldTokenOf (⟨s.Bytes, st.start, end_⟩, s.Typ) ts.length)
  have hpos := hinv.pos
  have hlen : ((previousStep ts (⟨s.Bytes, st.start, end_⟩, s.Typ)).length : Int) + 1 =
      st.pos + 1 := by
    simp [previousStep, hpos]
  have htok : oldTokenOf (⟨s.Bytes, st.start, end_⟩, s.Typ) ts.length =
      { Term := s.Bytes, Start := st.start, End := end_, Position := st.pos,
        Typ := convertType s.Typ } := by
    simp [oldTokenOf, hpos]
  rw [htok] at hp
  unfold previousEmit
  by_cases hfull : st.rv.length ≥ st.rvCap
  · simp only [hlt, if_true, pure, Except.pure, hfull]
    refine ⟨_, rfl, rfl, ⟨?_, hlen.symm⟩⟩
    simp only [PrevState.all, foldl_append_chunks, List.nil_append]
    rw [previousStep, htok]
    exact hp
  · simp only [hlt, if_true, pure, Except.pure, hfull, if_false]
    refine ⟨_, rfl, rfl, ⟨?_, hlen.symm⟩⟩
    simp only [PrevState.all, ← List.append_assoc]
    rw [previousStep, htok]
    exact hp

theorem previousBody_spec (inputBytes : Int) (s : OldSegment) (st : PrevState)
    (ts : List Token) (hinv : PrevInv st ts) :
    ∃ st', previousBody inputBytes s st = .ok st' ∧
      st'.start = st.start + (s.Bytes.length : Int) ∧
      PrevInv st' ((oldKept st.start [s]).foldl previousStep ts) := by
  unfold previousBody
  by_cases hT : s.Typ ≠ segment.None
  · obtain ⟨st1, h1, hinv1, hlt1, hs1⟩ :=
      previousRefill_spec inputBytes (st.start + (s.Bytes.length : Int)) st ts hinv
    obtain ⟨st2, h2, hs2, hinv2⟩ :=
      previousEmit_spec s (st.start + (s.Bytes.length : Int)) st1 ts hinv1 hlt1
    simp only [hT, if_true, bind, Except.bind, h1, h2, pure, Except.pure, ne_eq,
      not_false_eq_true]
    refine ⟨_, rfl, rfl, ?_⟩
    have : (oldKept st.start [s]).foldl previousStep ts =
        previousStep ts (⟨s.Bytes, st1.start, st.start + (s.Bytes.length : Int)⟩, s.Typ) := by
      simp [oldKept, hT, hs1]
    rw [this]
    exact ⟨hinv2.pool, hinv2.pos⟩
  · simp only [hT, if_false, bind, Except.bind, pure, Except.pure]
    refine ⟨_, rfl, rfl, ?_⟩
    have : (oldKept st.start [s]).foldl previousStep ts = ts := by
      simp [oldKept, hT]
    rw [this]
    exact ⟨hinv.pool, hinv.pos⟩

theorem oldKept_cons (start : Int) (s : OldSegment) (rest : List OldSegment) :
    oldKept start (s :: rest) =
      oldKept start [s] ++ oldKept (start + (s.Bytes.length : Int)) rest := by
  by_cases hT : s.Typ ≠ segment.None
  · simp [oldKept, hT]
  · simp [oldKept, hT]

theorem previousLoop_spec (inputBytes : Int) (segs : List OldSegment) :
    ∀ (st : PrevState) (ts : List Token), PrevInv st ts →
      ∃ st', previousLoop inputBytes segs st = .ok st' ∧
        PrevInv st' ((oldKept st.start segs).foldl previousStep ts) := by
  induction segs with
  | nil =>
    intro st ts hinv
    exact ⟨st, rfl, hinv⟩
  | cons s rest ih =>
    intro st ts hinv
    obtain ⟨st1, h1, hs1, hinv1⟩ := previousBody_spec inputBytes s st ts hinv
    obtain ⟨st', h2, hinv'⟩ := ih st1 _ hinv1
    refine ⟨st', ?_, ?_⟩
    · unfold previousLoop
      simp only [bind, Except.bind, h1]
      exact h2
    · rw [oldKept_cons, List.foldl_append, ← hs1]
      exact hinv'

theorem TokenizePrevious_eq (old : List Byte → List OldSegment) (input : List Byte) :
    TokenizePrevious old input = .ok ((oldKept 0 (old input)).foldl previousStep []) := by
  have h0 : PrevInv
      { heap := [[]], ta := 0, taNext := 0, rvx := [], rv := [], rvCap := 1,
        start := 0, pos := 1 } [] :=
    ⟨⟨rfl, Nat.zero_le _, fun p hp => (by cases hp), rfl⟩, rfl⟩
  obtain ⟨st, hl, hinv⟩ := previousLoop_spec (input.length : Int) (old input) _ _ h0
  unfold TokenizePrevious
  simp only [bind, Except.bind, pure, Except.pure, hl, previousResult_eq_all]
  rw [hinv.pool.stream]

theorem previousStep_foldl_eq (w : Words) (l : List (Segment × Int))
    (htyp : ∀ x ∈ l, convertType x.2 = getType w x.1.Bytes) :
    ∀ acc : List Token,
      l.foldl previousStep acc = (l.map Prod.fst).foldl (naiveStep w) acc := by
  induction l with
  | nil => intro acc; rfl
  | cons x rest ih =>
    intro acc
    have hx : previousStep acc x = naiveStep w acc x.1 := by
      simp [previousStep, naiveStep, oldTokenOf, tokenOf, htyp x (List.mem_cons_self _ _)]
    simp only [List.foldl_cons, List.map_cons, hx]
    exact ih (fun y hy => htyp y (List.mem_cons_of_mem _ hy)) _

/-- C6: given that the old engine's kept segments, with the offsets `TokenizePrevious`
computes as running sums, are the segments the new walker keeps, and that `convertType`
of the old segment type is `getType` of the segment bytes, `TokenizePrevious(input)`
returns a stream whose tokens are the kept segments once each, in order, with positions
1, 2, ...; `Tokenize(input)` returns that same stream (same length, same `Term`,
`Start`, `End`, `Position` and `Type` at every index) whenever the walker's `End()`
stays within the input, and can return no other stream. -/
theorem Tokenize_eq_previous (rt : UnicodeTokenizer) (w : Words)
    (old : List Byte → List OldSegment) (input : List Byte)
    (hseg : (oldKept 0 (old input)).map Prod.fst = keptSegments w input)
    (htyp : ∀ x ∈ oldKept 0 (old input), convertType x.2 = getType w x.1.Bytes) :
    ∃ ts, TokenizePrevious old input = .ok ts ∧
      ts.map Token.segment = (oldKept 0 (old input)).map Prod.fst ∧
      (∀ (i : Nat) (hi : i < ts.length), (ts.get ⟨i, hi⟩).Position = (i : Int) + 1) ∧
      (EndInRange w input → rt.Tokenize w input = .ok ts) ∧
      (∀ ts', rt.Tokenize w input = .ok ts' → ts' = ts) := by
  have hprev : TokenizePrevious old input = .ok (tokenizeNaive w input) := by
    rw [TokenizePrevious_eq, previousStep_foldl_eq w _ htyp, hseg]
    rfl
  refine ⟨tokenizeNaive w input, hprev, ?_, ?_, Tokenize_ok rt w input,
    Tokenize_sound rt w input⟩
  · rw [hseg]
    apply List.ext_getElem?
    intro i
    rw [List.getElem?_map, tokenizeNaive_getElem_opt w input i]
    cases (keptSegments w input)[i]? with
    | none => rfl
    | some s => rfl
  · intro i hi
    rw [List.get_eq_getElem, tokenizeNaive_getElem w input i hi]
    rfl

theorem Tokenize_eq_previous_witness :
    (oldKept 0 (byteOld sampleInput)).map Prod.fst = keptSegments byteWords sampleInput ∧
    (∀ x ∈ oldKept 0 (byteOld sampleInput),
      convertType x.2 = getType byteWords x.1.Bytes) ∧
    TokenizePrevious byteOld sampleInput = .ok sampleTokens ∧
    NewUnicodeTokenizer.Tokenize byteWords sampleInput = .ok sampleTokens ∧
    ∃ ts, TokenizePrevious byteOld sampleInput = .ok ts ∧
      ts.map Token.segment = (oldKept 0 (byteOld sampleInput)).map Prod.fst ∧
      (∀ (i : Nat) (hi : i < ts.length), (ts.get ⟨i, hi⟩).Position = (i : Int) + 1) ∧
      (EndInRange byteWords sampleInput →
        NewUnicodeTokenizer.Tokenize byteWords sampleInput = .ok ts) ∧
      (∀ ts', NewUnicodeTokenizer.Tokenize byteWords sampleInput = .ok ts' → ts' = ts) :=
  ⟨by decide, by decide, by decide, by decide,
   Tokenize_eq_previous NewUnicodeTokenizer byteWords byteOld sampleInput (by decide)
     (by decide)⟩

/-! ## More on `| 1` -/

theorem or1_nonneg_cases {x : Int} (hx : 0 ≤ x) :
    or1 x % 2 = 1 ∧ x ≤ or1 x ∧ or1 x ≤ x + 1 ∧
    (x % 2 = 1 → or1 x = x) ∧ (x % 2 = 0 → or1 x = x + 1) := by
  obtain ⟨m, rfl⟩ := Int.eq_ofNat_of_zero_le hx
  rw [or1_natCast]
  refine ⟨by omega, by omega, by omega, fun h => by omega, fun h => by omega⟩

theorem or1_neg {x : Int} (hx : x < 0) : or1 x < 0 := by
  cases x with
  | ofNat m => exact absurd hx (by simp)
  | negSucc m => exact Int.negSucc_lt_zero _

theorem or1_nonneg_iff {x : Int} (h : 0 ≤ or1 x) : 0 ≤ x := by
  by_contra hx
  have := or1_neg (Int.lt_of_not_ge hx)
  omega

theorem guessTokensWith_eq (inputBytes : Int) :
    guessTokensWith guessBytesPerToken inputBytes = .ok (or1 (Int.tdiv inputBytes 6)) := by
  have e1 : guessBytesPerToken ≠ 0 := by decide
  simp only [guessTokensWith, bind, Except.bind, pure, Except.pure, goDiv_ok _ e1]
  rfl

theorem guessTokensRemaining_eq {inputBytes bytesSoFar lenResult : Int}
    (h0 : 0 ≤ bytesSoFar) (hl : 0 ≤ lenResult) :
    guessTokensRemaining inputBytes bytesSoFar lenResult =
      .ok (or1 (Int.tdiv (inputBytes - bytesSoFar)
        (or1 (Int.tdiv bytesSoFar (or1 lenResult))))) := by
  have ht : 1 ≤ or1 lenResult := or1_pos hl
  have hq : 0 ≤ Int.tdiv bytesSoFar (or1 lenResult) := Int.tdiv_nonneg h0 (by omega)
  have ha : 1 ≤ or1 (Int.tdiv bytesSoFar (or1 lenResult)) := or1_pos hq
  have e1 : or1 lenResult ≠ 0 := by omega
  have e2 : or1 (Int.tdiv bytesSoFar (or1 lenResult)) ≠ 0 := by omega
  simp only [guessTokensRemaining, bind, Except.bind, pure, Except.pure, goDiv_ok _ e1,
    goDiv_ok _ e2]

theorem or1_ne_zero (x : Int) : or1 x ≠ 0 := by
  by_cases hx : 0 ≤ x
  · have := or1_pos hx
    omega
  · have := or1_neg (Int.lt_of_not_ge hx)
    omega

theorem guessTokensRemaining_value (inputBytes bytesSoFar lenResult : Int) :
    guessTokensRemaining inputBytes bytesSoFar lenResult =
      .ok (or1 (Int.tdiv (inputBytes - bytesSoFar)
        (or1 (Int.tdiv bytesSoFar (or1 lenResult))))) := by
  simp only [guessTokensRemaining, bind, Except.bind, pure, Except.pure,
    goDiv_ok _ (or1_ne_zero _)]

/-! ## The loop body, case by case -/

theorem tokenizeBody_cases (w : Words) (grow : Int → Int → Int → Except Panic Int)
    (inputBytes : Int) (s : Segment) (st st' : TokState)
    (hrun : tokenizeBody w grow inputBytes s st = .ok st') :
    (¬ Exhausted st ∧ st.poolIndex < st.heap.len st.pool ∧
      st' = { heap := st.heap.write ⟨st.pool, st.poolIndex⟩ (tokenOf w s st.result.length),
              pool := st.pool, poolIndex := st.poolIndex + 1,
              result := st.result ++ [⟨st.pool, st.poolIndex⟩] }) ∨
    (Exhausted st ∧ ∃ n pool, grow inputBytes s.End st.result.length = .ok n ∧
      makeTokens n = .ok pool ∧ 0 < pool.length ∧
      st' = { heap := (st.heap ++ [pool]).write ⟨st.heap.length, 0⟩
                (tokenOf w s st.result.length),
              pool := st.heap.length, poolIndex := 1,
              result := st.result ++ [⟨st.heap.length, 0⟩] }) := by
  unfold tokenizeBody at hrun
  by_cases hge : st.poolIndex ≥ st.heap.len st.pool
  · right
    refine ⟨hge, ?_⟩
    simp only [hge, if_true, bind, Except.bind] at hrun
    cases hg : grow inputBytes s.End st.result.length with
    | error e => simp [hg] at hrun
    | ok n =>
      cases hm : makeTokens n with
      | error e => simp [hg, hm] at hrun
      | ok pool =>
        simp only [hg, hm, pure, Except.pure] at hrun
        split at hrun
        · rename_i hlt
          rw [Heap.len_append_new] at hlt
          cases hrun
          exact ⟨n, pool, rfl, hm, hlt, rfl⟩
        · cases hrun
  · left
    refine ⟨hge, Nat.lt_of_not_le hge, ?_⟩
    simp only [hge, if_false, bind, Except.bind, pure, Except.pure] at hrun
    split at hrun
    · cases hrun
      rfl
    · cases hrun

theorem tokenizeBody_lens (w : Words) (grow : Int → Int → Int → Except Panic Int)
    (inputBytes : Int) (s : Segment) (st st' : TokState)
    (hrun : tokenizeBody w grow inputBytes s st = .ok st') :
    st.heap.length ≤ st'.heap.length ∧
    ∀ g, g < st.heap.length → st'.heap.len g = st.heap.len g := by
  rcases tokenizeBody_cases w grow inputBytes s st st' hrun with
    ⟨_, _, rfl⟩ | ⟨_, n, pool, _, _, _, rfl⟩
  · refine ⟨by simp [Heap.length_write], fun g _ => ?_⟩
    simp [Heap.len_write]
  · refine ⟨by simp [Heap.length_write], fun g hg => ?_⟩
    simp only [Heap.len_write]
    exact Heap.len_append_old _ _ _ hg

theorem tokenizeLoop_lens (w : Words) (grow : Int → Int → Int → Except Panic Int)
    (inputBytes : Int) (segs : List Segment) :
    ∀ (st st' : TokState), tokenizeLoop w grow inputBytes segs st = .ok st' →
      st.heap.length ≤ st'.heap.length ∧
      ∀ g, g < st.heap.length → st'.heap.len g = st.heap.len g := by
  induction segs with
  | nil =>
    intro st st' hrun
    cases hrun
    exact ⟨Nat.le_refl _, fun _ _ => rfl⟩
  | cons s rest ih =>
    intro st st' hrun
    unfold tokenizeLoop at hrun
    by_cases hk : w.AlphaNumeric s.Bytes = true
    · simp only [hk, if_true, bind, Except.bind] at hrun
      cases hb : tokenizeBody w grow inputBytes s st with
      | error e => simp [hb] at hrun
      | ok st1 =>
        simp only [hb] at hrun
        obtain ⟨h1, h2⟩ := tokenizeBody_lens w grow inputBytes s st st1 hb
        obtain ⟨h3, h4⟩ := ih st1 st' hrun
        exact ⟨Nat.le_trans h1 h3, fun g hg => by
          rw [h4 g (Nat.lt_of_lt_of_le hg h1), h2 g hg]⟩
    · simp only [hk] at hrun
      exact ih st st' hrun

theorem run_unfold (rt : UnicodeTokenizer) (w : Words) (input : List Byte) (r : TokRun)
    (hrun : rt.run w input = .ok r) :
    r.resultCap = or1 (Int.tdiv (input.length : Int) 6) ∧
    ∃ pool, makeTokens r.resultCap = .ok pool ∧
      tokenizeLoop w guessTokensRemaining (input.length : Int) (w.segments input)
        { heap := [pool], pool := 0, poolIndex := 0, result := [] } = .ok r.final := by
  unfold UnicodeTokenizer.run tokenizeRun at hrun
  simp only [bind, Except.bind, pure, Except.pure, guessTokensWith_eq] at hrun
  cases hc : makeCap (or1 (Int.tdiv (input.length : Int) 6)) with
  | error e => simp [hc] at hrun
  | ok u =>
    cases hm : makeTokens (or1 (Int.tdiv (input.length : Int) 6)) with
    | error e => simp [hc, hm] at hrun
    | ok pool =>
      simp only [hc, hm] at hrun
      cases hl : tokenizeLoop w guessTokensRemaining (input.length : Int) (w.segments input)
          { heap := [pool], pool := 0, poolIndex := 0, result := [] } with
      | error e => simp [hl] at hrun
      | ok st =>
        simp only [hl] at hrun
        cases hrun
        exact ⟨rfl, pool, hm, hl⟩

/-- C13: the initial capacity of `result` and the size of the first pool are
`(n / 6) | 1` for an input of `n` bytes: `n / 6` when that is odd and `n / 6 + 1` when
it is even, so never below `max(1, n / 6)` and at most one above it; and the run
returns when the walker's `End()` stays within the input. -/
theorem initial_capacity (rt : UnicodeTokenizer) (w : Words) (input : List Byte) :
    (∀ r, rt.run w input = .ok r →
      r.resultCap = or1 (Int.tdiv (input.length : Int) 6) ∧
      (r.final.heap.len 0 : Int) = or1 (Int.tdiv (input.length : Int) 6)) ∧
    (EndInRange w input → ∃ r, rt.run w input = .ok r) ∧
    (Int.tdiv (input.length : Int) 6 % 2 = 1 →
      or1 (Int.tdiv (input.length : Int) 6) = Int.tdiv (input.length : Int) 6) ∧
    (Int.tdiv (input.length : Int) 6 % 2 = 0 →
      or1 (Int.tdiv (input.length : Int) 6) = Int.tdiv (input.length : Int) 6 + 1) ∧
    specGuessTokens (input.length : Int) ≤ or1 (Int.tdiv (input.length : Int) 6) ∧
    or1 (Int.tdiv (input.length : Int) 6) ≤ specGuessTokens (input.length : Int) + 1 := by
  have hq : 0 ≤ Int.tdiv (input.length : Int) 6 := Int.tdiv_nonneg (by omega) (by decide)
  obtain ⟨_, h1, h2, h3, h4⟩ := or1_nonneg_cases hq
  have h5 := or1_pos hq
  refine ⟨?_, fun h => ?_, h3, h4, ?_, ?_⟩
  · intro r hr
    obtain ⟨hcap, pool, hm, hl⟩ := run_unfold rt w input r hr
    refine ⟨hcap, ?_⟩
    have hlen := (tokenizeLoop_lens w _ _ _ _ _ hl).2 0 (by simp)
    rw [hlen]
    obtain ⟨hn, hp⟩ := makeTokens_ok hm
    simp only [Heap.len, List.getD_cons_zero, hp]
    rw [Int.toNat_of_nonneg hn, hcap]
  · obtain ⟨r, hr, _⟩ := run_ok rt w input h
    exact ⟨r, hr⟩
  · unfold specGuessTokens
    omega
  · unfold specGuessTokens
    omega

theorem initial_capacity_witness :
    EndInRange byteWords twelveLetters ∧
    (∃ r, NewUnicodeTokenizer.run byteWords twelveLetters = .ok r) ∧
    Int.tdiv (twelveLetters.length : Int) 6 % 2 = 0 ∧
    or1 (Int.tdiv (twelveLetters.length : Int) 6) =
      Int.tdiv (twelveLetters.length : Int) 6 + 1 :=
  ⟨by unfold EndInRange; decide,
   (initial_capacity NewUnicodeTokenizer byteWords twelveLetters).2.1
     (by unfold EndInRange; decide),
   by decide,
   (initial_capacity NewUnicodeTokenizer byteWords twelveLetters).2.2.2.1 (by decide)⟩

/-- C13, counterexample: the 12 bytes `"abcdefghijkl"` give `12 / 6 = 2`, for which the
specification's `max(1, n / 6)` is 2, while `Tokenize` makes `result` with capacity
`2 | 1 = 3` and a first pool of 3 records. -/
theorem initial_capacity_counterexample :
    (NewUnicodeTokenizer.run byteWords twelveLetters).map
        (fun r => (r.resultCap, r.final.heap.len 0)) = .ok (3, 3) ∧
    specGuessTokens (twelveLetters.length : Int) = 2 := by
  decide

/-- C15: every estimate `Tokenize` computes is at least 1, for every input length,
every `0 <= bytesSoFar <= len(input)` and every number of tokens emitted so far: the
initial guess, the tokens-so-far divisor, the average-bytes-per-token divisor and the
size of the new pool; so both divisions of lines 54-55 have a non-zero divisor and the
pool that is made has at least one record. -/
theorem estimates_at_least_one (input : List Byte) (bytesSoFar : Int) (lenResult : Nat)
    (h0 : 0 ≤ bytesSoFar) (h1 : bytesSoFar ≤ (input.length : Int)) :
    (∃ g, guessTokensWith guessBytesPerToken (input.length : Int) = .ok g ∧ 1 ≤ g) ∧
    1 ≤ or1 (lenResult : Int) ∧
    1 ≤ or1 (Int.tdiv bytesSoFar (or1 (lenResult : Int))) ∧
    goDiv bytesSoFar (or1 (lenResult : Int)) =
      .ok (Int.tdiv bytesSoFar (or1 (lenResult : Int))) ∧
    goDiv ((input.length : Int) - bytesSoFar)
        (or1 (Int.tdiv bytesSoFar (or1 (lenResult : Int)))) =
      .ok (Int.tdiv ((input.length : Int) - bytesSoFar)
        (or1 (Int.tdiv bytesSoFar (or1 (lenResult : Int))))) ∧
    ∃ n pool, guessTokensRemaining (input.length : Int) bytesSoFar lenResult = .ok n ∧
      n = or1 (Int.tdiv ((input.length : Int) - bytesSoFar)
        (or1 (Int.tdiv bytesSoFar (or1 (lenResult : Int))))) ∧
      1 ≤ n ∧ makeTokens n = .ok pool ∧ 1 ≤ pool.length := by
  have hl : (0 : Int) ≤ (lenResult : Int) := by omega
  have ht : 1 ≤ or1 (lenResult : Int) := or1_pos hl
  have hq : 0 ≤ Int.tdiv bytesSoFar (or1 (lenResult : Int)) :=
    Int.tdiv_nonneg h0 (by omega)
  have ha : 1 ≤ or1 (Int.tdiv bytesSoFar (or1 (lenResult : Int))) := or1_pos hq
  have hr : 0 ≤ Int.tdiv ((input.length : Int) - bytesSoFar)
      (or1 (Int.tdiv bytesSoFar (or1 (lenResult : Int)))) :=
    Int.tdiv_nonneg (by omega) (by omega)
  have hn := or1_pos hr
  refine ⟨?_, ht, ha, goDiv_ok _ (by omega), goDiv_ok _ (by omega), _, _,
    guessTokensRemaining_eq h0 hl, rfl, hn, makeTokens_eq_ok (by omega), ?_⟩
  · obtain ⟨g, hg, hg0⟩ :=
      guessTokensWith_pos guessBytesPerToken (input.length : Int) (by decide) (by omega)
    exact ⟨g, hg, by omega⟩
  · simp only [List.length_replicate]
    omega

theorem estimates_at_least_one_witness :
    (0 : Int) ≤ 4 ∧ (4 : Int) ≤ (twelveLetters.length : Int) ∧
    guessTokensRemaining (twelveLetters.length : Int) 4 (3 : Nat) = .ok 9 ∧
    ∃ n pool, guessTokensRemaining (twelveLetters.length : Int) 4 (3 : Nat) = .ok n ∧
      n = or1 (Int.tdiv ((twelveLetters.length : Int) - 4)
        (or1 (Int.tdiv 4 (or1 ((3 : Nat) : Int))))) ∧
      1 ≤ n ∧ makeTokens n = .ok pool ∧ 1 ≤ pool.length :=
  ⟨by decide, by decide, by decide,
   (estimates_at_least_one twelveLetters 4 3 (by decide) (by decide)).2.2.2.2.2⟩

/-- C14: whenever the pool is used up with `b = segmenter.End()` bytes consumed and
`t = len(result)` tokens emitted, at every such moment, the loop body allocates a fresh
pool whose size is `((len(input) - b) / ((b / (t | 1)) | 1)) | 1`, integer division,
where `x | 1` is `x` for odd and `x + 1` for even `x >= 0`; and the body does go
through when `0 <= b <= len(input)`. -/
theorem pool_size_on_exhaustion (w : Words) (input : List Byte) (s : Segment)
    (st : TokState) (hex : Exhausted st) :
    (∀ st', tokenizeBody w guessTokensRemaining (input.length : Int) s st = .ok st' →
      st'.pool = st.heap.length ∧ st'.heap.length = st.heap.length + 1 ∧
      (st'.heap.len st'.pool : Int) =
        or1 (Int.tdiv ((input.length : Int) - s.End)
          (or1 (Int.tdiv s.End (or1 (st.result.length : Int)))))) ∧
    (0 ≤ s.End → s.End ≤ (input.length : Int) →
      ∃ st', tokenizeBody w guessTokensRemaining (input.length : Int) s st = .ok st') := by
  have hl : (0 : Int) ≤ (st.result.length : Int) := by omega
  constructor
  · intro st' hrun
    rcases tokenizeBody_cases w _ _ s st st' hrun with
      ⟨hne, _, _⟩ | ⟨_, n, pool, hg, hm, _, rfl⟩
    · exact absurd hex hne
    · rw [guessTokensRemaining_value] at hg
      cases hg
      obtain ⟨hn, hp⟩ := makeTokens_ok hm
      refine ⟨rfl, by simp [Heap.length_write], ?_⟩
      simp only [Heap.len_write, Heap.len_append_new, hp]
      exact Int.toNat_of_nonneg hn
  · intro h0 h1
    obtain ⟨n, hn, hn0⟩ :=
      @guessTokensRemaining_pos (input.length : Int) s.End (st.result.length : Int) h0 h1 hl
    unfold tokenizeBody
    have hlen : 0 < (st.heap ++ [List.replicate n.toNat Token.zero]).len st.heap.length := by
      rw [Heap.len_append_new]
      simp
      omega
    have hex' : st.poolIndex ≥ st.heap.len st.pool := hex
    simp only [hex', if_true, bind, Except.bind, hn, makeTokens_eq_ok (Int.le_of_lt hn0),
      pure, Except.pure, hlen]
    exact ⟨_, rfl⟩

/-! ## Counting tokens and bytes -/

theorem tokenizeNaive_segments (w : Words) (input : List Byte) :
    (tokenizeNaive w input).map Token.segment = keptSegments w input := by
  apply List.ext_getElem?
  intro i
  rw [List.getElem?_map, tokenizeNaive_getElem_opt w input i]
  cases (keptSegments w input)[i]? with
  | none => rfl
  | some s => rfl

theorem ordered_ranges_sum (L : Int) (l : List Segment) :
    ∀ lo : Int,
      l.Pairwise (fun a b => a.End ≤ b.Start) →
      (∀ s ∈ l, lo ≤ s.Start ∧ s.Start < s.End ∧ s.End ≤ L ∧
        (s.Bytes.length : Int) = s.End - s.Start) →
      (l.length : Int) ≤ ((l.map (fun s => s.Bytes.length)).sum : Nat) ∧
      (((l.map (fun s => s.Bytes.length)).sum : Nat) : Int) ≤ max (L - lo) 0 := by
  induction l with
  | nil =>
    intro lo _ _
    simp
  | cons s rest ih =>
    intro lo hp hall
    rw [List.pairwise_cons] at hp
    obtain ⟨h0, h1, h2, h3⟩ := hall s (List.mem_cons_self _ _)
    have hrest : ∀ x ∈ rest, s.End ≤ x.Start ∧ x.Start < x.End ∧ x.End ≤ L ∧
        (x.Bytes.length : Int) = x.End - x.Start := by
      intro x hx
      obtain ⟨_, a, b, c⟩ := hall x (List.mem_cons_of_mem _ hx)
      exact ⟨hp.1 x hx, a, b, c⟩
    obtain ⟨i1, i2⟩ := ih s.End hp.2 hrest
    simp only [List.length_cons, List.map_cons, List.sum_cons]
    constructor
    · omega
    · omega

/-- C17: for a walker whose segments are non-empty, non-overlapping in-range views of
the input, `Tokenize(input)` returns a stream with at most `len(input)` tokens, and the
lengths of all token `Term`s add up to at most `len(input)`. -/
theorem token_count_bound (rt : UnicodeTokenizer) (w : Words) (input : List Byte)
    (hv : SegmentsAreViews w input) (ho : SegmentsOrdered w input) :
    ∃ ts, rt.Tokenize w input = .ok ts ∧ ts.length ≤ input.length ∧
      (ts.map (fun t => t.Term.length)).sum ≤ input.length := by
  have hr : EndInRange w input := by
    intro s hs _
    have := hv s hs
    exact ⟨by omega, this.2.2.1⟩
  refine ⟨_, Tokenize_ok rt w input hr, ?_⟩
  have hp : (keptSegments w input).Pairwise (fun a b => a.End ≤ b.Start) :=
    List.Pairwise.filter _ ho
  have hall : ∀ s ∈ keptSegments w input, (0 : Int) ≤ s.Start ∧ s.Start < s.End ∧
      s.End ≤ (input.length : Int) ∧ (s.Bytes.length : Int) = s.End - s.Start := by
    intro s hs
    obtain ⟨h0, h1, h2, h3⟩ := hv s (keptSegments_mem w input s hs).1
    refine ⟨h0, h1, h2, ?_⟩
    rw [h3]
    exact slice_length input s.Start s.End h0 (by omega) h2
  obtain ⟨i1, i2⟩ := ordered_ranges_sum (input.length : Int) (keptSegments w input) 0 hp hall
  have hmap : (tokenizeNaive w input).map (fun t => t.Term.length) =
      (keptSegments w input).map (fun s => s.Bytes.length) := by
    rw [← tokenizeNaive_segments w input, List.map_map]
    rfl
  have hlen : (tokenizeNaive w input).length = (keptSegments w input).length :=
    tokenizeNaive_length w input
  rw [hmap, hlen]
  constructor
  · omega
  · omega

theorem token_count_bound_witness :
    SegmentsAreViews byteWords sampleInput ∧ SegmentsOrdered byteWords sampleInput ∧
    NewUnicodeTokenizer.Tokenize byteWords sampleInput = .ok sampleTokens ∧
    ∃ ts, NewUnicodeTokenizer.Tokenize byteWords sampleInput = .ok ts ∧
      ts.length ≤ sampleInput.length ∧
      (ts.map (fun t => t.Term.length)).sum ≤ sampleInput.length :=
  ⟨by unfold SegmentsAreViews; decide, by unfold SegmentsOrdered; decide, by decide,
   token_count_bound NewUnicodeTokenizer byteWords sampleInput
     (by unfold SegmentsAreViews; decide) (by unfold SegmentsOrdered; decide)⟩

/-! ## Slots: one record per token -/

theorem Heap.map_length_write (h : Heap) (q : Ptr) (t : Token) :
    (h.write q t).map List.length = h.map List.length := by
  apply List.ext_getElem
  · simp [Heap.write]
  · intro j h1 h2
    simp only [Heap.write, List.getElem_map, List.getElem_set]
    split
    · rename_i he
      subst he
      have hj : q.gen < h.length := by simpa using h2
      simp [List.getD_eq_getElem?_getD, List.getElem?_eq_getElem hj]
    · rfl

theorem guessTokensRemaining_form {inputBytes bytesSoFar lenResult n : Int}
    (h : guessTokensRemaining inputBytes bytesSoFar lenResult = .ok n) :
    ∃ r, n = or1 r := by
  simp only [guessTokensRemaining, bind, Except.bind, pure, Except.pure] at h
  cases h1 : goDiv bytesSoFar (or1 lenResult) with
  | error e => simp [h1] at h
  | ok q =>
    simp only [h1] at h
    cases h2 : goDiv (inputBytes - bytesSoFar) (or1 q) with
    | error e => simp [h2] at h
    | ok r =>
      simp only [h2] at h
      cases h
      exact ⟨r, rfl⟩

theorem makeTokens_or1_odd {r : Int} {pool : List Token}
    (h : makeTokens (or1 r) = .ok pool) : pool.length % 2 = 1 := by
  obtain ⟨hn, hp⟩ := makeTokens_ok h
  have hr : 0 ≤ r := or1_nonneg_iff hn
  obtain ⟨m, rfl⟩ := Int.eq_ofNat_of_zero_le hr
  rw [hp, or1_natCast]
  simp only [Int.toNat_ofNat]
  omega

theorem tokenizeBody_slot (w : Words) (inputBytes : Int) (s : Segment) (st st' : TokState)
    (ts : List Token) (hinv : PoolInv st.heap st.pool st.poolIndex st.result ts)
    (hslot : SlotInv st)
    (hrun : tokenizeBody w guessTokensRemaining inputBytes s st = .ok st') :
    SlotInv st' := by
  have hpool : st.pool < st.heap.length := by have := hinv.pool_last; omega
  rcases tokenizeBody_cases w _ inputBytes s st st' hrun with
    ⟨_, hlt, rfl⟩ | ⟨hex, n, pool, hg, hm, hpos, rfl⟩
  · refine ⟨?_, ?_, ?_⟩
    · apply List.Nodup.append hslot.nodup (List.nodup_singleton _)
      intro p hp hq
      have hq : p = ⟨st.pool, st.poolIndex⟩ := by simpa using hq
      subst hq
      exact Nat.lt_irrefl _ ((hinv.fresh _ hp).2 rfl)
    · have := hslot.count
      simp only [List.length_append, List.length_cons, List.length_nil, Heap.len_write,
        Heap.map_length_write]
      omega
    · intro g hg
      rw [Heap.length_write] at hg
      rw [Heap.len_write]
      exact hslot.odd g hg
  · have hidx : st.poolIndex = st.heap.len st.pool :=
      Nat.le_antisymm hinv.idx_le hex
    obtain ⟨r, rfl⟩ := guessTokensRemaining_form hg
    have hodd := makeTokens_or1_odd hm
    refine ⟨?_, ?_, ?_⟩
    · apply List.Nodup.append hslot.nodup (List.nodup_singleton _)
      intro p hp hq
      have hq : p = ⟨st.heap.length, 0⟩ := by simpa using hq
      subst hq
      exact Nat.lt_irrefl _ (hinv.fresh _ hp).1
    · have := hslot.count
      simp only [List.length_append, List.length_cons, List.length_nil, Heap.len_write,
        Heap.map_length_write, Heap.len_append_new, List.map_append, List.map_cons,
        List.map_nil, List.sum_append, List.sum_cons, List.sum_nil]
      omega
    · intro g hg
      rw [Heap.length_write] at hg
      rw [Heap.len_write]
      by_cases hlt : g < st.heap.length
      · rw [Heap.len_append_old _ _ _ hlt]
        exact hslot.odd g hlt
      · have : g = st.heap.length := by
          simp at hg
          omega
        subst this
        rw [Heap.len_append_new]
        exact hodd

theorem tokenizeLoop_slot (w : Words) (inputBytes : Int) (segs : List Segment) :
    ∀ (st st' : TokState) (ts : List Token),
      PoolInv st.heap st.pool st.poolIndex st.result ts → SlotInv st →
      tokenizeLoop w guessTokensRemaining inputBytes segs st = .ok st' → SlotInv st' := by
  induction segs with
  | nil =>
    intro st st' ts _ hslot hrun
    cases hrun
    exact hslot
  | cons s rest ih =>
    intro st st' ts hinv hslot hrun
    unfold tokenizeLoop at hrun
    by_cases hk : w.AlphaNumeric s.Bytes = true
    · simp only [hk, if_true, bind, Except.bind] at hrun
      cases hb : tokenizeBody w guessTokensRemaining inputBytes s st with
      | error e => simp [hb] at hrun
      | ok st1 =>
        simp only [hb] at hrun
        exact ih st1 st' _ (tokenizeBody_inv w _ inputBytes s st st1 ts hinv hb)
          (tokenizeBody_slot w inputBytes s st st1 ts hinv hslot hb) hrun
    · simp only [hk] at hrun
      exact ih st st' ts hinv hslot hrun

theorem initial_slot {q : Int} {pool : List Token} (hm : makeTokens (or1 q) = .ok pool) :
    PoolInv [pool] 0 0 [] [] ∧
    SlotInv { heap := [pool], pool := 0, poolIndex := 0, result := [] } := by
  refine ⟨⟨rfl, Nat.zero_le _, fun p hp => (by cases hp), rfl⟩, ⟨List.nodup_nil, ?_, ?_⟩⟩
  · simp [Heap.len]
  · intro g hg
    have : g = 0 := by simpa using hg
    subst this
    simpa [Heap.len] using makeTokens_or1_odd hm

theorem StoppedAt.invariants {w : Words} {input : List Byte} {pre : List Segment}
    {s : Segment} {st : TokState} (h : StoppedAt w input pre s st) :
    (∃ ts, PoolInv st.heap st.pool st.poolIndex st.result ts) ∧ SlotInv st := by
  obtain ⟨_, _, g, pool, hg, hm, hl⟩ := h
  rw [guessTokensWith_eq] at hg
  cases hg
  obtain ⟨h0, hs0⟩ := initial_slot hm
  exact ⟨⟨_, tokenizeLoop_inv w _ _ pre _ _ _ h0 hl⟩,
    tokenizeLoop_slot w _ pre _ _ _ h0 hs0 hl⟩

theorem run_slot (rt : UnicodeTokenizer) (w : Words) (input : List Byte) (r : TokRun)
    (hrun : rt.run w input = .ok r) : SlotInv r.final := by
  obtain ⟨hcap, pool, hm, hl⟩ := run_unfold rt w input r hrun
  rw [hcap] at hm
  obtain ⟨h0, hs0⟩ := initial_slot hm
  exact tokenizeLoop_slot w _ _ _ _ _ h0 hs0 hl

/-- C16: no token record is written twice.  When `Next` has stopped on a kept segment
in a state `Tokenize(input)` really reaches, the body writes the token into a record no
pointer of `result` points to and appends the pointer to it; every record `result`
already points to keeps all its fields; either the pool was not used up, the pool stays
and `poolIndex` goes up by one, or it was used up, the record is number 0 of a freshly
allocated pool and `poolIndex` becomes 1.  At the end of a run the pointers of `result`
are pairwise distinct and each record still holds the token written when it was
emitted. -/
theorem slot_written_once (rt : UnicodeTokenizer) (w : Words) (input : List Byte)
    (pre : List Segment) (s : Segment) (st st' : TokState)
    (hst : StoppedAt w input pre s st)
    (hrun : tokenizeBody w guessTokensRemaining (input.length : Int) s st = .ok st') :
    (∃ q : Ptr, st'.result = st.result ++ [q] ∧ q ∉ st.result ∧
      q.gen = st'.pool ∧ q.idx + 1 = st'.poolIndex ∧
      st'.heap.read q = tokenOf w s st.result.length ∧
      (∀ p ∈ st.result, st'.heap.read p = st.heap.read p) ∧
      ((¬ Exhausted st ∧ st'.pool = st.pool ∧ st'.poolIndex = st.poolIndex + 1 ∧
          st'.heap.length = st.heap.length) ∨
       (Exhausted st ∧ st'.pool = st.heap.length ∧ q.idx = 0 ∧
          st'.heap.length = st.heap.length + 1))) ∧
    st'.result.Nodup ∧
    ∀ r, rt.run w input = .ok r →
      r.final.result.Nodup ∧ r.final.heap.stream r.final.result = tokenizeNaive w input := by
  obtain ⟨⟨ts, hinv⟩, hslot⟩ := hst.invariants
  have hpool : st.pool < st.heap.length := by have := hinv.pool_last; omega
  have hslot' := tokenizeBody_slot w _ s st st' ts hinv hslot hrun
  refine ⟨?_, hslot'.nodup, fun r hr =>
    ⟨(run_slot rt w input r hr).nodup, (tokenizeRun_sound w _ _ input r hr).stream⟩⟩
  rcases tokenizeBody_cases w _ _ s st st' hrun with
    ⟨hne, hlt, rfl⟩ | ⟨hex, n, pool, hg, hm, hpos, rfl⟩
  · have hq : (⟨st.pool, st.poolIndex⟩ : Ptr) ∉ st.result := fun hp =>
      Nat.lt_irrefl _ ((hinv.fresh _ hp).2 rfl)
    refine ⟨⟨st.pool, st.poolIndex⟩, rfl, hq, rfl, rfl, ?_, ?_, ?_⟩
    · exact Heap.read_write_same _ _ _ hpool hlt
    · intro p hp
      apply Heap.read_write_ne
      intro he
      exact hq (he ▸ hp)
    · left
      exact ⟨hne, rfl, rfl, by simp [Heap.length_write]⟩
  · have hq : (⟨st.heap.length, 0⟩ : Ptr) ∉ st.result := fun hp =>
      Nat.lt_irrefl _ (hinv.fresh _ hp).1
    refine ⟨⟨st.heap.length, 0⟩, rfl, hq, rfl, rfl, ?_, ?_, ?_⟩
    · apply Heap.read_write_same
      · simp
      · show 0 < (st.heap ++ [pool]).len st.heap.length
        rw [Heap.len_append_new]
        exact hpos
    · intro p hp
      have hne : p ≠ ⟨st.heap.length, 0⟩ := fun he => hq (he ▸ hp)
      rw [Heap.read_write_ne _ _ _ _ hne]
      exact Heap.read_append _ _ _ (hinv.fresh _ hp).1
    · right
      exact ⟨hex, rfl, rfl, by simp [Heap.length_write]⟩

theorem slot_written_once_witness :
    StoppedAt byteWords sampleInput [⟨[97], 0, 1⟩] ⟨[98], 1, 2⟩
      { heap := [[⟨[97], 0, 1, 1, TokenType.AlphaNumeric⟩]], pool := 0, poolIndex := 1,
        result := [⟨0, 0⟩] } ∧
    tokenizeBody byteWords guessTokensRemaining (sampleInput.length : Int) ⟨[98], 1, 2⟩
      { heap := [[⟨[97], 0, 1, 1, TokenType.AlphaNumeric⟩]], pool := 0, poolIndex := 1,
        result := [⟨0, 0⟩] } =
      .ok { heap := [[⟨[97], 0, 1, 1, TokenType.AlphaNumeric⟩],
                     [⟨[98], 1, 2, 2, TokenType.AlphaNumeric⟩]],
            pool := 1, poolIndex := 1, result := [⟨0, 0⟩, ⟨1, 0⟩] } ∧
    ([⟨0, 0⟩, ⟨1, 0⟩] : List Ptr).Nodup :=
  ⟨⟨⟨[⟨[32], 2, 3⟩, ⟨[49], 3, 4⟩], by decide⟩, by decide, 1, [Token.zero], by decide,
      by decide, by decide⟩,
   by decide,
   (slot_written_once NewUnicodeTokenizer byteWords sampleInput [⟨[97], 0, 1⟩]
     ⟨[98], 1, 2⟩
     { heap := [[⟨[97], 0, 1, 1, TokenType.AlphaNumeric⟩]], pool := 0, poolIndex := 1,
       result := [⟨0, 0⟩] }
     { heap := [[⟨[97], 0, 1, 1, TokenType.AlphaNumeric⟩],
                [⟨[98], 1, 2, 2, TokenType.AlphaNumeric⟩]],
       pool := 1, poolIndex := 1, result := [⟨0, 0⟩, ⟨1, 0⟩] }
     ⟨⟨[⟨[32], 2, 3⟩, ⟨[49], 3, 4⟩], by decide⟩, by decide, 1, [Token.zero], by decide,
      by decide, by decide⟩
     (by decide)).2.1⟩

/-- C18: for `x >= 0`, `x | 1` is odd, is `x` when `x` is odd and `x + 1` when `x` is
even.  So the initial capacity is `n / 6` or `n / 6 + 1` and odd, every pool of a run
has an odd number of records, and when the pool is found used up in a state
`Tokenize(input)` really reaches, the number of tokens emitted is odd and equal to
`tokensSoFar` while only the first pool exists (first exhaustion), and even, one less
than `tokensSoFar`, when two pools exist (second exhaustion). -/
theorem or1_sizes_odd (rt : UnicodeTokenizer) (w : Words) (input : List Byte) (x : Int)
    (hx : 0 ≤ x) :
    (or1 x % 2 = 1 ∧ x ≤ or1 x ∧ or1 x ≤ x + 1 ∧
      (x % 2 = 1 → or1 x = x) ∧ (x % 2 = 0 → or1 x = x + 1)) ∧
    (∀ r, rt.run w input = .ok r →
      (r.resultCap = Int.tdiv (input.length : Int) 6 ∨
        r.resultCap = Int.tdiv (input.length : Int) 6 + 1) ∧
      r.resultCap % 2 = 1 ∧
      ∀ g, g < r.final.heap.length → r.final.heap.len g % 2 = 1) ∧
    ∀ pre s st, StoppedAt w input pre s st → Exhausted st →
      (st.heap.length = 1 →
        st.result.length % 2 = 1 ∧
        or1 (st.result.length : Int) = (st.result.length : Int)) ∧
      (st.heap.length = 2 →
        st.result.length % 2 = 0 ∧
        or1 (st.result.length : Int) = (st.result.length : Int) + 1) := by
  refine ⟨or1_nonneg_cases hx, ?_, ?_⟩
  · intro r hr
    obtain ⟨hcap, _⟩ := run_unfold rt w input r hr
    have hq : 0 ≤ Int.tdiv (input.length : Int) 6 :=
      Int.tdiv_nonneg (by omega) (by decide)
    obtain ⟨h1, h2, h3, h4, h5⟩ := or1_nonneg_cases hq
    refine ⟨?_, by rw [hcap]; exact h1, (run_slot rt w input r hr).odd⟩
    rw [hcap]
    omega
  · intro pre s st hst hex
    obtain ⟨⟨ts, hinv⟩, hslot⟩ := hst.invariants
    have hidx : st.poolIndex = st.heap.len st.pool := Nat.le_antisymm hinv.idx_le hex
    have hcount := hslot.count
    have hodd := hslot.odd
    have hor : ∀ m : Nat, (m % 2 = 1 → or1 (m : Int) = (m : Int)) ∧
        (m % 2 = 0 → or1 (m : Int) = (m : Int) + 1) := by
      intro m
      rw [or1_natCast]
      exact ⟨fun h => by omega, fun h => by omega⟩
    have hlast := hinv.pool_last
    constructor
    · intro h1
      have hp0 : st.pool = 0 := by omega
      rw [hp0] at hidx hcount
      match hh : st.heap, h1 with
      | [p], _ =>
        rw [hh] at hcount hodd hidx
        have h0 := hodd 0 (by simp)
        simp only [Heap.len, List.getD_cons_zero] at h0 hidx hcount
        simp only [List.map_cons, List.map_nil, List.sum_cons, List.sum_nil] at hcount
        have hlen : st.result.length % 2 = 1 := by omega
        exact ⟨hlen, (hor _).1 hlen⟩
    · intro h2
      have hp1 : st.pool = 1 := by omega
      rw [hp1] at hidx hcount
      match hh : st.heap, h2 with
      | [p, q], _ =>
        rw [hh] at hcount hodd hidx
        have h0 := hodd 0 (by simp)
        have h1 := hodd 1 (by simp)
        simp only [Heap.len, List.getD_cons_zero, List.getD_cons_succ] at h0 h1 hidx hcount
        simp only [List.map_cons, List.map_nil, List.sum_cons, List.sum_nil] at hcount
        have hlen : st.result.length % 2 = 0 := by omega
        exact ⟨hlen, (hor _).2 hlen⟩

theorem or1_sizes_odd_witness :
    (0 : Int) ≤ 2 ∧ or1 2 = 3 ∧
    StoppedAt byteWords sampleInput [⟨[97], 0, 1⟩, ⟨[98], 1, 2⟩, ⟨[32], 2, 3⟩] ⟨[49], 3, 4⟩
      { heap := [[⟨[97], 0, 1, 1, TokenType.AlphaNumeric⟩],
                 [⟨[98], 1, 2, 2, TokenType.AlphaNumeric⟩]],
        pool := 1, poolIndex := 1, result := [⟨0, 0⟩, ⟨1, 0⟩] } ∧
    or1 (([⟨0, 0⟩, ⟨1, 0⟩] : List Ptr).length : Int) =
      (([⟨0, 0⟩, ⟨1, 0⟩] : List Ptr).length : Int) + 1 :=
  ⟨by decide, by decide,
   ⟨⟨[], by decide⟩, by decide, 1, [Token.zero], by decide, by decide, by decide⟩,
   ((((or1_sizes_odd NewUnicodeTokenizer byteWords sampleInput 2 (by decide)).2.2
     [⟨[97], 0, 1⟩, ⟨[98], 1, 2⟩, ⟨[32], 2, 3⟩] ⟨[49], 3, 4⟩
     { heap := [[⟨[97], 0, 1, 1, TokenType.AlphaNumeric⟩],
                [⟨[98], 1, 2, 2, TokenType.AlphaNumeric⟩]],
       pool := 1, poolIndex := 1, result := [⟨0, 0⟩, ⟨1, 0⟩] }
     ⟨⟨[], by decide⟩, by decide, 1, [Token.zero], by decide, by decide, by decide⟩
     (by unfold Exhausted; decide)).2 (by decide)).2)⟩

/-! ## Contiguous segments -/

theorem contiguous_bounds (l : List Segment) :
    ∀ lo hi : Int, Contiguous lo hi l →
      lo ≤ hi ∧ ∀ s ∈ l, lo ≤ s.Start ∧ s.Start ≤ s.End ∧ s.End ≤ hi := by
  induction l with
  | nil =>
    intro lo hi h
    have h : lo = hi := h
    exact ⟨by omega, fun s hs => (by cases hs)⟩
  | cons s rest ih =>
    intro lo hi h
    obtain ⟨h1, h2, h3⟩ := h
    obtain ⟨i1, i2⟩ := ih s.End hi h3
    refine ⟨by omega, fun x hx => ?_⟩
    rcases List.mem_cons.1 hx with rfl | hx
    · exact ⟨by omega, h2, i1⟩
    · obtain ⟨a, b, c⟩ := i2 x hx
      exact ⟨by omega, b, c⟩

theorem contiguous_pairwise (l : List Segment) :
    ∀ lo hi : Int, Contiguous lo hi l → l.Pairwise (fun a b => a.End ≤ b.Start) := by
  induction l with
  | nil => intro _ _ _; exact List.Pairwise.nil
  | cons s rest ih =>
    intro lo hi h
    obtain ⟨_, _, h3⟩ := h
    rw [List.pairwise_cons]
    exact ⟨fun x hx => ((contiguous_bounds rest s.End hi h3).2 x hx).1, ih s.End hi h3⟩

theorem contiguous_covers_once (l : List Segment) :
    ∀ lo hi : Int, Contiguous lo hi l → ∀ i : Int, lo ≤ i → i < hi →
      (l.filter (fun s => s.covers i)).length = 1 := by
  induction l with
  | nil =>
    intro lo hi h i h1 h2
    have h : lo = hi := h
    omega
  | cons s rest ih =>
    intro lo hi h i h1 h2
    obtain ⟨e1, e2, e3⟩ := h
    by_cases hi' : i < s.End
    · have hs : s.covers i = true := by
        simp only [Segment.covers, decide_eq_true_eq]
        omega
      have hrest : rest.filter (fun x => x.covers i) = [] := by
        rw [List.filter_eq_nil_iff]
        intro x hx
        have := ((contiguous_bounds rest s.End hi e3).2 x hx).1
        simp only [Segment.covers, decide_eq_true_eq]
        omega
      rw [List.filter_cons, if_pos hs, hrest]
      rfl
    · have hs : ¬ s.covers i = true := by
        simp only [Segment.covers, decide_eq_true_eq]
        omega
      rw [List.filter_cons, if_neg hs]
      exact ih s.End hi e3 i (by omega) h2

/-! ## The walker of the specification -/

theorem specWalk_spec (boundary : List Byte → Nat) (input : List Byte) (fuel : Nat) :
    ∀ (pos : Nat) (rest : List Byte), rest.length ≤ fuel → input.drop pos = rest →
      Contiguous (pos : Int) ((pos + rest.length : Nat) : Int)
        (specWalk boundary fuel pos rest) ∧
      (∀ s ∈ specWalk boundary fuel pos rest,
        s.Start < s.End ∧ s.Bytes = slice input s.Start s.End) ∧
      ((specWalk boundary fuel pos rest).map (fun s => s.Bytes)).flatten = rest := by
  induction fuel with
  | zero =>
    intro pos rest hlen _
    have : rest = [] := List.length_eq_zero.1 (Nat.le_zero.1 hlen)
    subst this
    refine ⟨?_, fun s hs => (by cases hs), rfl⟩
    show (pos : Int) = ((pos + 0 : Nat) : Int)
    rfl
  | succ fuel ih =>
    intro pos rest hlen hdrop
    cases rest with
    | nil =>
      refine ⟨?_, fun s hs => (by cases hs), rfl⟩
      show (pos : Int) = ((pos + 0 : Nat) : Int)
      rfl
    | cons b rest =>
      have hn : 1 ≤ ((b :: rest).take (max 1 (boundary (b :: rest)))).length := by
        simp only [List.length_take, List.length_cons]
        omega
      have hle : ((b :: rest).take (max 1 (boundary (b :: rest)))).length ≤
          (b :: rest).length := by
        simp only [List.length_take]
        omega
      generalize hbytes : (b :: rest).take (max 1 (boundary (b :: rest))) = bytes at hn hle
      have hbn : bytes.length ≤ max 1 (boundary (b :: rest)) := by
        rw [← hbytes, List.length_take]
        omega
      have hbl : (b :: rest).take bytes.length = bytes := by
        have h := List.take_take bytes.length (max 1 (boundary (b :: rest))) (b :: rest)
        rw [hbytes, List.take_length, min_eq_left hbn] at h
        exact h.symm
      have hdl : ((b :: rest).drop bytes.length).length ≤ fuel := by
        simp only [List.length_drop]
        simp only [List.length_cons] at hlen hle ⊢
        omega
      have hdrop' : input.drop (pos + bytes.length) = (b :: rest).drop bytes.length := by
        rw [← hdrop, List.drop_drop]
      obtain ⟨c1, c2, c3⟩ := ih (pos + bytes.length) ((b :: rest).drop bytes.length) hdl hdrop'
      have hwalk : specWalk boundary (fuel + 1) pos (b :: rest) =
          ⟨bytes, (pos : Int), ((pos + bytes.length : Nat) : Int)⟩ ::
            specWalk boundary fuel (pos + bytes.length) ((b :: rest).drop bytes.length) := by
        simp only [specWalk, hbytes]
      rw [hwalk]
      refine ⟨⟨rfl, ?_, ?_⟩, ?_, ?_⟩
      · show (pos : Int) ≤ ((pos + bytes.length : Nat) : Int)
        omega
      · have e : pos + bytes.length + ((b :: rest).drop bytes.length).length =
            pos + (b :: rest).length := by
          simp only [List.length_drop]
          omega
        rw [e] at c1
        exact c1
      · intro s hs
        rcases List.mem_cons.1 hs with rfl | hs
        · refine ⟨?_, ?_⟩
          · show (pos : Int) < ((pos + bytes.length : Nat) : Int)
            omega
          · show bytes = slice input (pos : Int) ((pos + bytes.length : Nat) : Int)
            simp only [slice, Int.toNat_ofNat, hdrop, Nat.add_sub_cancel_left]
            exact hbl.symm
        · exact c2 s hs
      · have happ : bytes ++ (b :: rest).drop bytes.length = b :: rest := by
          nth_rewrite 1 [← hbl]
          exact List.take_append_drop _ _
        simp only [List.map_cons, List.flatten_cons, c3]
        exact happ

theorem specSegments_spec (boundary : List Byte → Nat) (input : List Byte) :
    Contiguous 0 (input.length : Int) (specSegments boundary input) ∧
    (∀ s ∈ specSegments boundary input,
      s.Start < s.End ∧ s.Bytes = slice input s.Start s.End) ∧
    ((specSegments boundary input).map (fun s => s.Bytes)).flatten = input := by
  have := specWalk_spec boundary input input.length 0 input (Nat.le_refl _) rfl
  simpa [specSegments] using this

/-! ## The offsets of `TokenizePrevious` -/

theorem oldRanges_contiguous (l : List OldSegment) :
    ∀ start : Int,
      Contiguous start (start + ((l.map (fun s => s.Bytes)).flatten.length : Int))
        (oldRanges start l) := by
  induction l with
  | nil =>
    intro start
    show start = start + ((0 : Nat) : Int)
    omega
  | cons s rest ih =>
    intro start
    refine ⟨rfl, ?_, ?_⟩
    · show start ≤ start + (s.Bytes.length : Int)
      omega
    · have := ih (start + (s.Bytes.length : Int))
      simp only [List.map_cons, List.flatten_cons, List.length_append]
      have e : start + ((s.Bytes.length + ((rest.map (fun s => s.Bytes)).flatten.length) : Nat) : Int)
          = start + (s.Bytes.length : Int) +
            (((rest.map (fun s => s.Bytes)).flatten.length : Nat) : Int) := by
        omega
      rw [e]
      exact this

theorem oldKept_sublist (l : List OldSegment) :
    ∀ start : Int, ((oldKept start l).map Prod.fst).Sublist (oldRanges start l) := by
  induction l with
  | nil => intro _; exact List.Sublist.slnil
  | cons s rest ih =>
    intro start
    by_cases hT : s.Typ ≠ segment.None
    · simp only [oldKept, hT, if_true, List.map_cons, oldRanges, ne_eq, not_false_eq_true]
      exact List.Sublist.cons₂ _ (ih _)
    · simp only [oldKept, hT, if_false, oldRanges]
      exact List.Sublist.cons _ (ih _)

theorem previousStep_segments (l : List (Segment × Int)) :
    ∀ acc : List Token,
      (l.foldl previousStep acc).map Token.segment =
        acc.map Token.segment ++ l.map Prod.fst := by
  induction l with
  | nil => intro acc; simp
  | cons x rest ih =>
    intro acc
    rw [List.foldl_cons, ih]
    simp [previousStep, oldTokenOf, Token.segment]

/-- C11: for the boundary walker as the specification describes it, the ranges of all
segments (kept and dropped) tile `[0, len(input))`: the first starts at 0, each starts
where the one before ends, the last ends at `len(input)`, every segment is the
non-empty input range `[Start, End)`, the segments concatenate to the input, and every
byte offset lies in exactly one segment.  `Tokenize` returns, and its tokens carry the
offsets and bytes of a sub-sequence of these segments.  `TokenizePrevious` computes its
offsets as running sums, so the ranges it assigns tile `[0, total bytes)` (which is
`[0, len(input))` when the old engine's segments concatenate to the input), and its
tokens carry a sub-sequence of them. -/
theorem walker_partition (rt : UnicodeTokenizer) (w : Words) (boundary : List Byte → Nat)
    (old : List Byte → List OldSegment) (input : List Byte)
    (hw : w.segments input = specSegments boundary input) :
    Contiguous 0 (input.length : Int) (w.segments input) ∧
    (∀ s ∈ w.segments input, s.Start < s.End ∧ s.Bytes = slice input s.Start s.End) ∧
    ((w.segments input).map (fun s => s.Bytes)).flatten = input ∧
    (∀ i : Int, 0 ≤ i → i < (input.length : Int) →
      ((w.segments input).filter (fun s => s.covers i)).length = 1) ∧
    (∃ ts, rt.Tokenize w input = .ok ts ∧
      (ts.map Token.segment).Sublist (w.segments input) ∧
      ∀ t ∈ ts, t.Term = slice input t.Start t.End) ∧
    (∃ ts, TokenizePrevious old input = .ok ts ∧
      (ts.map Token.segment).Sublist (oldRanges 0 (old input))) ∧
    Contiguous 0 ((((old input).map (fun s => s.Bytes)).flatten.length : Nat) : Int)
      (oldRanges 0 (old input)) ∧
    (((old input).map (fun s => s.Bytes)).flatten = input →
      Contiguous 0 (input.length : Int) (oldRanges 0 (old input))) := by
  obtain ⟨c1, c2, c3⟩ := specSegments_spec boundary input
  rw [← hw] at c1 c2 c3
  have hr : EndInRange w input := by
    intro s hs _
    have := (contiguous_bounds _ _ _ c1).2 s hs
    exact ⟨by omega, this.2.2⟩
  have hold : Contiguous 0 ((((old input).map (fun s => s.Bytes)).flatten.length : Nat) : Int)
      (oldRanges 0 (old input)) := by
    have := oldRanges_contiguous (old input) 0
    simpa using this
  refine ⟨c1, c2, c3, contiguous_covers_once _ _ _ c1, ?_, ?_, hold, ?_⟩
  · refine ⟨_, Tokenize_ok rt w input hr, ?_, ?_⟩
    · rw [tokenizeNaive_segments]
      exact List.filter_sublist _
    · intro t ht
      obtain ⟨s, hs, n, rfl⟩ := tokenizeNaive_mem w input t ht
      exact (c2 s (keptSegments_mem w input s hs).1).2
  · refine ⟨_, TokenizePrevious_eq old input, ?_⟩
    rw [previousStep_segments]
    exact oldKept_sublist (old input) 0
  · intro h
    rw [h] at hold
    exact hold

theorem walker_partition_witness :
    pairWords.segments sampleInput = [⟨[97, 98], 0, 2⟩, ⟨[32], 2, 3⟩, ⟨[49], 3, 4⟩] ∧
    NewUnicodeTokenizer.Tokenize pairWords sampleInput =
      .ok [⟨[97, 98], 0, 2, 1, TokenType.AlphaNumeric⟩, ⟨[49], 3, 4, 2, TokenType.Numeric⟩] ∧
    Contiguous 0 (sampleInput.length : Int) (pairWords.segments sampleInput) ∧
    ((pairWords.segments sampleInput).filter (fun s => s.covers 1)).length = 1 ∧
    Contiguous 0 (sampleInput.length : Int) (oldRanges 0 (byteOld sampleInput)) :=
  ⟨by decide, by decide,
   (walker_partition NewUnicodeTokenizer pairWords pairBoundary byteOld sampleInput rfl).1,
   (walker_partition NewUnicodeTokenizer pairWords pairBoundary byteOld sampleInput
     rfl).2.2.2.1 1 (by decide) (by decide),
   (walker_partition NewUnicodeTokenizer pairWords pairBoundary byteOld sampleInput
     rfl).2.2.2.2.2.2.2 (by decide)⟩

/-! ## A call does not depend on the heap it finds, and leaves it as it was -/

theorem Heap.len_shift (h0 h : Heap) (g : Nat) : (h0 ++ h).len (h0.length + g) = h.len g := by
  simp only [Heap.len]
  rw [List.getD_append_right _ _ _ _ (Nat.le_add_right _ _), Nat.add_sub_cancel_left]

theorem Heap.read_shift (h0 h : Heap) (p : Ptr) :
    (h0 ++ h).read (p.shift h0.length) = h.read p := by
  simp only [Heap.read, Ptr.shift]
  rw [List.getD_append_right _ _ _ _ (Nat.le_add_right _ _), Nat.add_sub_cancel_left]

theorem Heap.write_shift (h0 h : Heap) (p : Ptr) (t : Token) :
    (h0 ++ h).write (p.shift h0.length) t = h0 ++ h.write p t := by
  simp only [Heap.write, Ptr.shift]
  rw [List.getD_append_right _ _ _ _ (Nat.le_add_right _ _), Nat.add_sub_cancel_left,
    List.set_append, if_neg (by omega), Nat.add_sub_cancel_left]

theorem Heap.read_earlier (h0 h : Heap) (p : Ptr) (hp : p.gen < h0.length) :
    (h0 ++ h).read p = h0.read p := by
  simp only [Heap.read]
  rw [List.getD_append _ _ _ _ hp]

theorem Heap.stream_shift (h0 h : Heap) (ps : List Ptr) :
    (h0 ++ h).stream (ps.map (Ptr.shift h0.length)) = h.stream ps := by
  simp only [Heap.stream, List.map_map]
  apply List.map_congr_left
  intro p _
  exact Heap.read_shift h0 h p

theorem tokenizeBody_onHeap (heap0 : Heap) (w : Words)
    (grow : Int → Int → Int → Except Panic Int) (inputBytes : Int) (s : Segment)
    (st : TokState) :
    tokenizeBody w grow inputBytes s (st.onHeap heap0) =
      (tokenizeBody w grow inputBytes s st).map (TokState.onHeap heap0) := by
  have hshift : ∀ g i : Nat, (⟨heap0.length + g, i⟩ : Ptr) = Ptr.shift heap0.length ⟨g, i⟩ :=
    fun _ _ => rfl
  unfold tokenizeBody
  simp only [TokState.onHeap, Heap.len_shift, List.length_map]
  by_cases hge : st.poolIndex ≥ st.heap.len st.pool
  · simp only [hge, if_true, bind, Except.bind]
    cases hg : grow inputBytes s.End st.result.length with
    | error e => rfl
    | ok n =>
      simp only []
      cases hm : makeTokens n with
      | error e => rfl
      | ok pool =>
        simp only [pure, Except.pure, List.length_append, List.append_assoc,
          Heap.len_shift]
        by_cases hlt : 0 < (st.heap ++ [pool]).len st.heap.length
        · simp only [hlt, if_true, Except.map, hshift, Heap.write_shift, List.map_append,
            List.map_cons, List.map_nil, TokState.onHeap, List.length_map]
        · simp only [hlt, if_false, Except.map]
  · simp only [hge, if_false, bind, Except.bind, pure, Except.pure]
    by_cases hlt : st.poolIndex < st.heap.len st.pool
    · simp only [hlt, if_true, Except.map, hshift, Heap.write_shift, List.map_append,
        List.map_cons, List.map_nil, TokState.onHeap, List.length_map, Heap.len_shift]
    · simp only [hlt, if_false, Except.map, Heap.len_shift]

theorem tokenizeLoop_onHeap (heap0 : Heap) (w : Words)
    (grow : Int → Int → Int → Except Panic Int) (inputBytes : Int) (segs : List Segment) :
    ∀ st : TokState,
      tokenizeLoop w grow inputBytes segs (st.onHeap heap0) =
        (tokenizeLoop w grow inputBytes segs st).map (TokState.onHeap heap0) := by
  induction segs with
  | nil => intro st; rfl
  | cons s rest ih =>
    intro st
    unfold tokenizeLoop
    by_cases hk : w.AlphaNumeric s.Bytes = true
    · simp only [hk, if_true, bind, Except.bind, tokenizeBody_onHeap]
      cases tokenizeBody w grow inputBytes s st with
      | error e => rfl
      | ok st1 => exact ih st1
    · simp only [hk]
      exact ih st

theorem tokenizeRunOn_eq (heap0 : Heap) (w : Words) (guess : Int → Except Panic Int)
    (grow : Int → Int → Int → Except Panic Int) (input : List Byte) :
    tokenizeRunOn heap0 w guess grow input =
      (tokenizeRun w guess grow input).map
        (fun r => { r with final := r.final.onHeap heap0 }) := by
  unfold tokenizeRunOn tokenizeRun
  simp only [bind, Except.bind, pure, Except.pure]
  cases hg : guess (input.length : Int) with
  | error e => rfl
  | ok g =>
    simp only []
    cases hc : makeCap g with
    | error e => rfl
    | ok u =>
      simp only []
      cases hm : makeTokens g with
      | error e => rfl
      | ok pool =>
        simp only []
        have h0 := tokenizeLoop_onHeap heap0 w grow (input.length : Int) (w.segments input)
          ⟨[pool], 0, 0, []⟩
        simp only [TokState.onHeap, List.map_nil, Nat.add_zero] at h0
        rw [h0]
        cases tokenizeLoop w grow (input.length : Int) (w.segments input)
            ⟨[pool], 0, 0, []⟩ with
        | error e => rfl
        | ok st => rfl

theorem pool_size_on_exhaustion_witness :
    Exhausted stateAtB ∧
    (∃ st', tokenizeBody runWords guessTokensRemaining (spacedLetters.length : Int)
      ⟨[98], 2, 3⟩ stateAtB = .ok st') ∧
    ((3 : Nat) : Int) =
      or1 (Int.tdiv ((spacedLetters.length : Int) - 3) (or1 (Int.tdiv 3 (or1 1)))) :=
  ⟨by unfold Exhausted; decide,
   (pool_size_on_exhaustion runWords spacedLetters ⟨[98], 2, 3⟩ stateAtB
     (by unfold Exhausted; decide)).2 (by decide) (by decide),
   ((pool_size_on_exhaustion runWords spacedLetters ⟨[98], 2, 3⟩ stateAtB
     (by unfold Exhausted; decide)).1
     { heap := [[⟨[97], 0, 1, 1, TokenType.AlphaNumeric⟩],
                [⟨[98], 2, 3, 2, TokenType.AlphaNumeric⟩, Token.zero, Token.zero]],
       pool := 1, poolIndex := 1, result := [⟨0, 0⟩, ⟨1, 0⟩] }
     (by decide)).2.2⟩

/-- C14, counterexample: `"a b c d e f"` (11 bytes, six one-letter words) starts with a
pool of `(11 / 6) | 1 = 1` record.  When `Next` stops on `"b"` the pool is used up with
`b = 3` bytes consumed and `t = 1` token emitted: the specification's formula gives
`max(1, (11 - 3) / max(1, 3 / 1)) = 2`, lines 53-55 compute
`((11 - 3) / ((3 / (1 | 1)) | 1)) | 1 = 3`.  When `Next` stops on `"e"` the second pool
is used up with `b = 9`, `t = 4`: the formula gives
`max(1, (11 - 9) / max(1, 9 / 4)) = 1`, the code computes
`((11 - 9) / ((9 / (4 | 1)) | 1)) | 1 = 3`.  The run ends with pools of 1, 3 and 3
records. -/
theorem pool_size_counterexample :
    StoppedAt runWords spacedLetters [⟨[97], 0, 1⟩, ⟨[32], 1, 2⟩] ⟨[98], 2, 3⟩ stateAtB ∧
    Exhausted stateAtB ∧ stateAtB.result.length = 1 ∧
    specGuessRemaining (spacedLetters.length : Int) 3 1 = 2 ∧
    (tokenizeBody runWords guessTokensRemaining (spacedLetters.length : Int) ⟨[98], 2, 3⟩
      stateAtB).map (fun st => st.heap.len st.pool) = .ok 3 ∧
    StoppedAt runWords spacedLetters
      [⟨[97], 0, 1⟩, ⟨[32], 1, 2⟩, ⟨[98], 2, 3⟩, ⟨[32], 3, 4⟩, ⟨[99], 4, 5⟩, ⟨[32], 5, 6⟩,
       ⟨[100], 6, 7⟩, ⟨[32], 7, 8⟩] ⟨[101], 8, 9⟩ stateAtE ∧
    Exhausted stateAtE ∧ stateAtE.result.length = 4 ∧
    specGuessRemaining (spacedLetters.length : Int) 9 4 = 1 ∧
    (tokenizeBody runWords guessTokensRemaining (spacedLetters.length : Int) ⟨[101], 8, 9⟩
      stateAtE).map (fun st => st.heap.len st.pool) = .ok 3 ∧
    (NewUnicodeTokenizer.run runWords spacedLetters).map
      (fun r => r.final.heap.map List.length) = .ok [1, 3, 3] :=
  ⟨⟨⟨[⟨[32], 3, 4⟩, ⟨[99], 4, 5⟩, ⟨[32], 5, 6⟩, ⟨[100], 6, 7⟩, ⟨[32], 7, 8⟩, ⟨[101], 8, 9⟩,
       ⟨[32], 9, 10⟩, ⟨[102], 10, 11⟩], by decide⟩,
     by decide, 1, [Token.zero], by decide, by decide, by decide⟩,
   by unfold Exhausted; decide, by decide, by decide, by decide,
   ⟨⟨[⟨[32], 9, 10⟩, ⟨[102], 10, 11⟩], by decide⟩,
     by decide, 1, [Token.zero], by decide, by decide, by decide⟩,
   by unfold Exhausted; decide, by decide, by decide, by decide, by decide⟩

/-- C12: with the ideographic check as the specification describes it (a segment is
accepted when it is composed of ideographic codepoints), `getType` gives `Ideographic`
to every segment composed of ideographic codepoints only, whatever the numeric check
says of it, and to no segment that has another codepoint in it (that one is `Numeric`
or `AlphaNumeric`, as the numeric check decides); and so for the `Term` and `Type` of
every token of `Tokenize(input)`. -/
theorem ideographic_composed (rt : UnicodeTokenizer) (w : Words) (input : List Byte)
    (decode : List Byte → List Nat) (ideographic : Nat → Bool)
    (hI : ∀ seg, w.BleveIdeographic seg = specBleveIdeographic decode ideographic seg) :
    (∀ seg, (∀ c ∈ decode seg, ideographic c = true) →
      getType w seg = TokenType.Ideographic) ∧
    (∀ seg, (∃ c ∈ decode seg, ideographic c = false) →
      getType w seg ≠ TokenType.Ideographic ∧
      (w.BleveNumeric seg = true → getType w seg = TokenType.Numeric) ∧
      (w.BleveNumeric seg = false → getType w seg = TokenType.AlphaNumeric)) ∧
    (EndInRange w input → ∃ ts, rt.Tokenize w input = .ok ts) ∧
    ∀ ts, rt.Tokenize w input = .ok ts → ∀ t ∈ ts,
      ((∀ c ∈ decode t.Term, ideographic c = true) → t.Typ = TokenType.Ideographic) ∧
      ((∃ c ∈ decode t.Term, ideographic c = false) → t.Typ ≠ TokenType.Ideographic) := by
  have hyes : ∀ seg, (∀ c ∈ decode seg, ideographic c = true) →
      getType w seg = TokenType.Ideographic := by
    intro seg hc
    have : w.BleveIdeographic seg = true := by
      rw [hI, specBleveIdeographic, List.all_eq_true]
      exact hc
    simp [getType, this]
  have hno : ∀ seg, (∃ c ∈ decode seg, ideographic c = false) →
      getType w seg ≠ TokenType.Ideographic ∧
      (w.BleveNumeric seg = true → getType w seg = TokenType.Numeric) ∧
      (w.BleveNumeric seg = false → getType w seg = TokenType.AlphaNumeric) := by
    intro seg hc
    obtain ⟨c, hc1, hc2⟩ := hc
    have : w.BleveIdeographic seg = false := by
      rw [hI, specBleveIdeographic]
      cases hall : (decode seg).all ideographic with
      | false => rfl
      | true =>
        rw [List.all_eq_true] at hall
        rw [hall c hc1] at hc2
        cases hc2
    unfold getType
    rw [this]
    cases w.BleveNumeric seg <;> simp
  refine ⟨hyes, hno, Tokenize_returns rt w input, ?_⟩
  intro ts h t ht
  have e := Tokenize_sound rt w input ts h
  subst e
  obtain ⟨s, _, n, rfl⟩ := tokenizeNaive_mem w input t ht
  exact ⟨fun hc => hyes s.Bytes hc, fun hc => (hno s.Bytes hc).1⟩

theorem ideographic_composed_witness :
    utf8Decode katakanaAlone = [12459] ∧ cjkTable 12459 = true ∧
    eagerNumericWords.BleveNumeric katakanaAlone = true ∧
    getType eagerNumericWords katakanaAlone = TokenType.Ideographic ∧
    EndInRange runWords katakanaAlone ∧
    (∃ ts, NewUnicodeTokenizer.Tokenize runWords katakanaAlone = .ok ts) ∧
    NewUnicodeTokenizer.Tokenize runWords katakanaAlone =
      .ok [⟨katakanaAlone, 0, 3, 1, TokenType.Ideographic⟩] ∧
    (⟨katakanaAlone, 0, 3, 1, TokenType.Ideographic⟩ : Token).Typ = TokenType.Ideographic :=
  ⟨by decide, by decide, by decide,
   (ideographic_composed NewUnicodeTokenizer eagerNumericWords katakanaAlone utf8Decode
     cjkTable (fun _ => rfl)).1 katakanaAlone (by decide),
   by unfold EndInRange; decide,
   (ideographic_composed NewUnicodeTokenizer runWords katakanaAlone utf8Decode cjkTable
     (fun _ => rfl)).2.2.1 (by unfold EndInRange; decide),
   by decide,
   ((ideographic_composed NewUnicodeTokenizer runWords katakanaAlone utf8Decode cjkTable
     (fun _ => rfl)).2.2.2 [⟨katakanaAlone, 0, 3, 1, TokenType.Ideographic⟩] (by decide)
     ⟨katakanaAlone, 0, 3, 1, TokenType.Ideographic⟩ (by decide)).1 (by decide)⟩

/-- C12, counterexample: the 5 bytes `"カ_1"` are one kept segment that contains the
ideographic codepoint U+30AB together with an underscore and a digit; the ideographic
check, which accepts segments composed of ideographic codepoints, rejects it, and
`Tokenize` gives the token the `Type` `AlphaNumeric`, not `Ideographic`. -/
theorem ideographic_counterexample :
    runWords.segments katakanaMixed = [⟨katakanaMixed, 0, 5⟩] ∧
    runWords.AlphaNumeric katakanaMixed = true ∧
    utf8Decode katakanaMixed = [12459, 95, 49] ∧
    (∃ c ∈ utf8Decode katakanaMixed, cjkTable c = true) ∧
    runWords.BleveIdeographic katakanaMixed = false ∧
    NewUnicodeTokenizer.Tokenize runWords katakanaMixed =
      .ok [⟨katakanaMixed, 0, 5, 1, TokenType.AlphaNumeric⟩] ∧
    (⟨katakanaMixed, 0, 5, 1, TokenType.AlphaNumeric⟩ : Token).Typ ≠
      TokenType.Ideographic :=
  ⟨by decide, by decide, by decide, ⟨12459, by decide, by decide⟩, by decide, by decide,
   by decide⟩

theorem Tokenize_eq_map (rt : UnicodeTokenizer) (w : Words) (input : List Byte) :
    rt.Tokenize w input = (rt.run w input).map TokRun.stream := by
  unfold UnicodeTokenizer.Tokenize
  simp only [bind, Except.bind, pure, Except.pure]
  cases rt.run w input with
  | error e => rfl
  | ok r => rfl

theorem runOn_eq (rt : UnicodeTokenizer) (heap0 : Heap) (w : Words) (input : List Byte) :
    rt.runOn heap0 w input =
      (rt.run w input).map (fun r => { r with final := r.final.onHeap heap0 }) :=
  tokenizeRunOn_eq heap0 w _ _ input

theorem runOn_ok (rt : UnicodeTokenizer) (heap0 : Heap) (w : Words) (input : List Byte)
    (r : TokRun) (h : rt.runOn heap0 w input = .ok r) :
    ∃ r0, rt.run w input = .ok r0 ∧ r = { r0 with final := r0.final.onHeap heap0 } := by
  rw [runOn_eq] at h
  cases hr : rt.run w input with
  | error e =>
    rw [hr] at h
    cases h
  | ok r0 =>
    rw [hr] at h
    cases h
    exact ⟨r0, rfl, rfl⟩

theorem runOn_stream (rt : UnicodeTokenizer) (heap0 : Heap) (w : Words) (input : List Byte) :
    (rt.runOn heap0 w input).map TokRun.stream = rt.Tokenize w input := by
  rw [runOn_eq, Tokenize_eq_map]
  cases rt.run w input with
  | error e => rfl
  | ok r =>
    show Except.ok _ = Except.ok _
    congr 1
    exact Heap.stream_shift heap0 r.final.heap r.final.result

theorem runOn_pointers (rt : UnicodeTokenizer) (heap0 : Heap) (w : Words)
    (input : List Byte) (r : TokRun) (h : rt.runOn heap0 w input = .ok r) :
    (∃ own, r.final.heap = heap0 ++ own) ∧
    (∀ p : Ptr, p.gen < heap0.length → r.final.heap.read p = heap0.read p) ∧
    (∀ p ∈ r.final.result, heap0.length ≤ p.gen ∧ p.gen < r.final.heap.length) := by
  obtain ⟨r0, hr0, rfl⟩ := runOn_ok rt heap0 w input r h
  have hinv := tokenizeRun_sound w _ _ input r0 hr0
  refine ⟨⟨r0.final.heap, rfl⟩, fun p hp => Heap.read_earlier _ _ p hp, ?_⟩
  intro p hp
  obtain ⟨q, hq, rfl⟩ := List.mem_map.1 hp
  have := (hinv.fresh q hq).1
  simp only [TokState.onHeap, Ptr.shift, List.length_append]
  omega

/-- C9: `Tokenize` is deterministic and independent of the instance and of the calls
made before it.  In a process whose heap holds whatever earlier calls allocated, any two
tokenizer instances, on any two such heaps, end the same way on the same input: in the
same panic, or with streams equal in length and in every token's `Term`, `Start`, `End`,
`Position` and `Type`, the stream of `Tokenize(input)` run on its own.  A call only
adds backing arrays to the heap: no record an earlier call allocated is changed, so the
stream an earlier call returned reads the same after any later call.  Tokens with
identical bytes have the same `Type`, wherever they stand and whichever call produced
them. -/
theorem Tokenize_deterministic (rt₁ rt₂ : UnicodeTokenizer) (w : Words)
    (heap₁ heap₂ : Heap) (input input₂ : List Byte) :
    (rt₁.runOn heap₁ w input).map TokRun.stream =
      (rt₂.runOn heap₂ w input).map TokRun.stream ∧
    (rt₁.runOn heap₁ w input).map TokRun.stream = rt₂.Tokenize w input ∧
    rt₁.Tokenize w input = rt₂.Tokenize w input ∧
    (∀ r, rt₁.runOn heap₁ w input = .ok r →
      (∃ own, r.final.heap = heap₁ ++ own) ∧
      (∀ p : Ptr, p.gen < heap₁.length → r.final.heap.read p = heap₁.read p)) ∧
    (∀ rA rB, rt₁.runOn heap₁ w input = .ok rA →
      rt₂.runOn rA.final.heap w input₂ = .ok rB →
      rB.final.heap.stream rA.final.result = rA.stream ∧
      rt₁.Tokenize w input = .ok rA.stream ∧ rt₂.Tokenize w input₂ = .ok rB.stream) ∧
    ∀ ts₁ ts₂, rt₁.Tokenize w input = .ok ts₁ → rt₂.Tokenize w input₂ = .ok ts₂ →
      ∀ t₁ ∈ ts₁, ∀ t₂ ∈ ts₂, t₁.Term = t₂.Term → t₁.Typ = t₂.Typ := by
  have hinst : ∀ a b : UnicodeTokenizer, a = b := fun a b => by cases a; cases b; rfl
  refine ⟨?_, ?_, ?_, ?_, ?_, ?_⟩
  · rw [runOn_stream, runOn_stream, hinst rt₁ rt₂]
  · rw [runOn_stream, hinst rt₁ rt₂]
  · rw [hinst rt₁ rt₂]
  · intro r hr
    obtain ⟨h1, h2, _⟩ := runOn_pointers rt₁ heap₁ w input r hr
    exact ⟨h1, h2⟩
  · intro rA rB hA hB
    obtain ⟨_, _, hptr⟩ := runOn_pointers rt₁ heap₁ w input rA hA
    obtain ⟨_, hkeep, _⟩ := runOn_pointers rt₂ rA.final.heap w input₂ rB hB
    have sA := runOn_stream rt₁ heap₁ w input
    have sB := runOn_stream rt₂ rA.final.heap w input₂
    rw [hA] at sA
    rw [hB] at sB
    refine ⟨?_, sA.symm, sB.symm⟩
    simp only [TokRun.stream, Heap.stream]
    apply List.map_congr_left
    intro p hp
    exact hkeep p (hptr p hp).2
  · intro ts₁ ts₂ h₁ h₂ t₁ ht₁ t₂ ht₂ he
    have e₁ := Tokenize_sound rt₁ w input ts₁ h₁
    have e₂ := Tokenize_sound rt₂ w input₂ ts₂ h₂
    subst e₁
    subst e₂
    obtain ⟨s₁, _, n₁, rfl⟩ := tokenizeNaive_mem w input t₁ ht₁
    obtain ⟨s₂, _, n₂, rfl⟩ := tokenizeNaive_mem w input₂ t₂ ht₂
    have he : s₁.Bytes = s₂.Bytes := he
    show getType w s₁.Bytes = getType w s₂.Bytes
    rw [he]

theorem Tokenize_deterministic_witness :
    NewUnicodeTokenizer.runOn heapAfterX runWords sampleInput =
      .ok { resultCap := 1,
            final := { heap := [[⟨[120], 0, 1, 1, TokenType.AlphaNumeric⟩],
                                [⟨[97, 98], 0, 2, 1, TokenType.AlphaNumeric⟩],
                                [⟨[49], 3, 4, 2, TokenType.Numeric⟩]],
                       pool := 2, poolIndex := 1, result := [⟨1, 0⟩, ⟨2, 0⟩] } } ∧
    NewUnicodeTokenizer.Tokenize runWords sampleInput = .ok sampleWordTokens ∧
    Heap.read [[⟨[120], 0, 1, 1, TokenType.AlphaNumeric⟩],
               [⟨[97, 98], 0, 2, 1, TokenType.AlphaNumeric⟩],
               [⟨[49], 3, 4, 2, TokenType.Numeric⟩]] ⟨0, 0⟩ = heapAfterX.read ⟨0, 0⟩ ∧
    (NewUnicodeTokenizer.runOn heapAfterX runWords sampleInput).map TokRun.stream =
      (NewUnicodeTokenizer.runOn [] runWords sampleInput).map TokRun.stream :=
  ⟨by decide, by decide,
   ((Tokenize_deterministic NewUnicodeTokenizer NewUnicodeTokenizer runWords heapAfterX []
     sampleInput sampleInput).2.2.2.1
     { resultCap := 1,
       final := { heap := [[⟨[120], 0, 1, 1, TokenType.AlphaNumeric⟩],
                           [⟨[97, 98], 0, 2, 1, TokenType.AlphaNumeric⟩],
                           [⟨[49], 3, 4, 2, TokenType.Numeric⟩]],
                  pool := 2, poolIndex := 1, result := [⟨1, 0⟩, ⟨2, 0⟩] } }
     (by decide)).2 ⟨0, 0⟩ (by decide),
   (Tokenize_deterministic NewUnicodeTokenizer NewUnicodeTokenizer runWords heapAfterX []
     sampleInput sampleInput).1⟩

end Unicode
